import Mathlib

/-!
Verification development for the graph-construction / angular-feature core of the
matgl repository (graph computations over atomic graphs and their line graphs) and
for the model-download helper `ModelSource`.

The graph kernel (`matgl/graph/compute.py`) is exercised by `tests/graph/test_compute.py`;
its functions (`compute_pair_vector_and_distance`, `create_line_graph`,
`create_directed_line_graph`, `compute_theta_and_phi`, `compute_theta`,
`prune_edges_by_features`) are modelled here from the specification, with the test
suite fixing the disputed details (in particular the polarity of the pruning
condition and the directed pairing convention).

Numeric conventions of the embedding:

* float tensors are idealised as exact rationals (`ℚ`);
* a cosine value dot(u,v)/(|u|·|v|) is irrational in general, so it is carried in
  the exact algebraic representation `(s, q) : ℤ × ℚ` denoting the real number
  `s * Real.sqrt q` (`repReal`); for cosines, `s` is the sign of the dot product
  and `q` the square of the cosine, which determines the real value exactly;
* a theta value is carried as the representation of its cosine argument
  (constructor `AttrVal.ac`, denoting `Real.arccos (s * Real.sqrt q)`).
-/

namespace MatglSpec

/-- A 3-component vector with exact rational components (idealised float tensor row). -/
structure Vec3 where
  x : ℚ
  y : ℚ
  z : ℚ
deriving DecidableEq, Repr

instance : Inhabited Vec3 := ⟨⟨0, 0, 0⟩⟩

/-- Componentwise addition. -/
def Vec3.add (u v : Vec3) : Vec3 := ⟨u.x + v.x, u.y + v.y, u.z + v.z⟩

/-- Componentwise subtraction. -/
def Vec3.sub (u v : Vec3) : Vec3 := ⟨u.x - v.x, u.y - v.y, u.z - v.z⟩

/-- Componentwise negation. -/
def Vec3.neg (u : Vec3) : Vec3 := ⟨-u.x, -u.y, -u.z⟩

/-- Scalar multiple. -/
def Vec3.smul (c : ℚ) (u : Vec3) : Vec3 := ⟨c * u.x, c * u.y, c * u.z⟩

/-- Dot product. -/
def Vec3.dot (u v : Vec3) : ℚ := u.x * v.x + u.y * v.y + u.z * v.z

/-- Squared Euclidean norm. -/
def Vec3.normSq (u : Vec3) : ℚ := Vec3.dot u u

/-- Sign of a rational, as an integer in {-1, 0, 1}. -/
def sgnQ (a : ℚ) : ℤ := if 0 < a then 1 else if a < 0 then -1 else 0

/-- Exact representation of the cosine dot(u,v)/(|u|·|v|): the pair
(sign of the dot product, squared cosine).  The represented real number is
`repReal (cosRep u v) = (dot u v) / (Real.sqrt (normSq u) * Real.sqrt (normSq v))`
whenever both vectors are nonzero (see `repReal_cosRep`). -/
def cosRep (u v : Vec3) : ℤ × ℚ :=
  (sgnQ (Vec3.dot u v), (Vec3.dot u v) * (Vec3.dot u v) / (Vec3.normSq u * Vec3.normSq v))

/-- Clipping of a represented cosine to the interval [-1, 1] (torch.clamp(-1, 1)).
On representations `(s, q)` with `s` a sign this is `(s, min q 1)`. -/
def clipRep (r : ℤ × ℚ) : ℤ × ℚ := (r.1, if 1 < r.2 then 1 else r.2)

/-- Negation of a represented value: `repReal (negRep r) = - repReal r`. -/
def negRep (r : ℤ × ℚ) : ℤ × ℚ := (-r.1, r.2)

/-- The guard factor 1 - 1e-7 used by `compute_theta` before taking arccos. -/
def epsFactor : ℚ := 1 - 1 / 10000000

/-- Multiplication of a represented value by the positive factor `epsFactor`:
`repReal (epsScale r) = epsFactor * repReal r` for `0 ≤ r.2`. -/
def epsScale (r : ℤ × ℚ) : ℤ × ℚ := (r.1, epsFactor * epsFactor * r.2)

/-- The real number denoted by a representation `(s, q)`, namely `s * √q`. -/
noncomputable def repReal (r : ℤ × ℚ) : ℝ := (r.1 : ℝ) * Real.sqrt ((r.2 : ℚ) : ℝ)

/-- An attribute value stored in a DGL-style node/edge data dictionary.
`q` : rational scalar (bond distances, phi); `v3` : 3-vector (positions, bond
vectors, periodic offsets); `n` : integer id (edge_ids); `c s q` : exact cosine
value `s·√q`; `ac s q` : exact angle `arccos (s·√q)`. -/
inductive AttrVal where
  | q (v : ℚ)
  | v3 (v : Vec3)
  | n (v : ℕ)
  | c (sgn : ℤ) (sq : ℚ)
  | ac (sgn : ℤ) (sq : ℚ)
deriving DecidableEq, Repr

instance : Inhabited AttrVal := ⟨AttrVal.q 0⟩

/-- Rational scalar carried by an attribute value (0 for non-scalar entries). -/
def AttrVal.toQ : AttrVal → ℚ
  | .q v => v
  | _ => 0

/-- 3-vector carried by an attribute value (zero for non-vector entries). -/
def AttrVal.toV3 : AttrVal → Vec3
  | .v3 v => v
  | _ => default

/-- Whether the attribute value is a rational scalar. -/
def AttrVal.isQ : AttrVal → Bool
  | .q _ => true
  | _ => false

/-- Whether the attribute value is a 3-vector. -/
def AttrVal.isV3 : AttrVal → Bool
  | .v3 _ => true
  | _ => false

/-- The real number denoted by an attribute value (vectors map to 0; only scalar,
cosine and angle entries are interpreted). -/
noncomputable def AttrVal.real : AttrVal → ℝ
  | .q v => (v : ℝ)
  | .v3 _ => 0
  | .n v => (v : ℝ)
  | .c s sq => repReal (s, sq)
  | .ac s sq => Real.arccos (repReal (s, sq))

/-- A DGL-style graph: a node count, a directed edge list, an optional lattice
(three row vectors), and named node/edge attribute stores.  Attribute stores are
association lists from attribute name to the per-node / per-edge value list. -/
structure MGraph where
  numNodes : ℕ
  edges : List (ℕ × ℕ)
  lattice : Option (Vec3 × Vec3 × Vec3)
  ndata : List (String × List AttrVal)
  edata : List (String × List AttrVal)
deriving DecidableEq, Repr

/-- Look up a named attribute in a store. -/
def getAttr (store : List (String × List AttrVal)) (name : String) :
    Option (List AttrVal) :=
  match store.find? (fun p => p.1 == name) with
  | some p => some p.2
  | none => none

/-- Write a named attribute into a store, replacing an existing entry of the same
name or appending a new entry. -/
def setAttr (store : List (String × List AttrVal)) (name : String)
    (vals : List AttrVal) : List (String × List AttrVal) :=
  if store.any (fun p => p.1 == name) then
    store.map (fun p => if p.1 == name then (name, vals) else p)
  else store ++ [(name, vals)]

/-- The 3-vector stored at index `i` of attribute `name` (zero if absent). -/
def vec3At (store : List (String × List AttrVal)) (name : String) (i : ℕ) : Vec3 :=
  match getAttr store name with
  | some l => (l.getD i default).toV3
  | none => default

/-- The rational stored at index `i` of attribute `name` (0 if absent). -/
def qAt (store : List (String × List AttrVal)) (name : String) (i : ℕ) : ℚ :=
  match getAttr store name with
  | some l => (l.getD i default).toQ
  | none => 0

/-- Pair each element of a list with its index, starting from `n`. -/
def withIdx {α : Type*} : ℕ → List α → List (ℕ × α)
  | _, [] => []
  | n, x :: xs => (n, x) :: withIdx (n + 1) xs

/-- Indices (into the edge list, of length `numE`) of the edges retained by the
pruning predicate: those on which `cond` is FALSE (`cond` selects edges to remove,
mirroring `valid_edges = ~condition(...)` in the source test's usage). -/
def keptIds (vals : List AttrVal) (cond : AttrVal → Bool) (numE : ℕ) : List ℕ :=
  (List.range numE).filter (fun i => !cond (vals.getD i default))

/-- Modelled from the spec: `prune_edges_by_features(graph, attribute_name,
condition, keep_ndata, keep_edata)` of the missing `matgl/graph/compute.py`.
Fails (None) when the named edge attribute is absent.  Otherwise builds a new
graph containing exactly the edges on which `condition` is false (the test
`test_remove_edges_by_features` passes `condition = x > cutoff` and checks that
the edges with `bond_dist ≤ cutoff` survive), in their original relative order,
and attaches `edge_ids`, the original indices of the retained edges.  With
`keep_edata` every edge attribute is sub-indexed onto the retained edges; with
`keep_ndata` the node store is copied unchanged (node indices are preserved). -/
def prune_edges_by_features (g : MGraph) (featName : String) (cond : AttrVal → Bool)
    (keep_ndata : Bool) (keep_edata : Bool) : Option MGraph :=
  match getAttr g.edata featName with
  | none => none
  | some vals =>
    let eIds := keptIds vals cond g.edges.length
    let baseEdata :=
      if keep_edata then
        g.edata.map (fun p => (p.1, eIds.map (fun i => p.2.getD i default)))
      else []
    some { numNodes := g.numNodes
           edges := eIds.map (fun i => g.edges.getD i (0, 0))
           lattice := g.lattice
           ndata := if keep_ndata then g.ndata else []
           edata := setAttr baseEdata "edge_ids" (eIds.map AttrVal.n) }

/-- The pruning condition used by the line-graph builders: remove a bond when its
`bond_dist` value exceeds the three-body cutoff. -/
def bondDistCond (cutoff : ℚ) (v : AttrVal) : Bool := decide (cutoff < v.toQ)

/-- Ordered pairs (by pruned-edge index) of distinct bonds outgoing from `atom`,
in bond-list order: the per-atom pair enumeration of the undirected line graph. -/
def atomPairs (pidx : List (ℕ × (ℕ × ℕ))) (atom : ℕ) : List (ℕ × ℕ) :=
  let inc := pidx.filter (fun pe => pe.2.1 == atom)
  inc.flatMap (fun a => (inc.filter (fun b => b.1 != a.1)).map (fun b => (a.1, b.1)))

/-- Modelled from the spec: `create_line_graph(g, threebody_cutoff)` of the missing
`matgl/graph/compute.py`.  Fails on a non-positive cutoff or a missing `bond_dist`
attribute.  Otherwise prunes the atomic graph to the bonds with
`bond_dist ≤ cutoff` (keeping node and edge data, so `bond_vec`/`bond_dist`
survive onto the line-graph nodes), and creates, for every atom, one line-graph
edge per ordered pair of distinct retained bonds sharing that source atom. -/
def create_line_graph (g : MGraph) (threebody_cutoff : ℚ) : Option MGraph :=
  if threebody_cutoff ≤ 0 then none
  else
    match prune_edges_by_features g "bond_dist" (bondDistCond threebody_cutoff)
        true true with
    | none => none
    | some pg =>
      some { numNodes := pg.edges.length
             edges := (List.range g.numNodes).flatMap (atomPairs (withIdx 0 pg.edges))
             lattice := none
             ndata := pg.edata
             edata := [] }

/-- Directed line-graph pair enumeration: a line-graph edge from bond `a` to bond
`b` whenever the head of `a` is the tail of `b` (the bonds meet head-to-tail at
the shared atom) and `b` is not the reverse image of `a` (no self-pairing of a
physical bond with its own reverse). -/
def directedPairs (pg : MGraph) : List (ℕ × ℕ) :=
  let pidx := withIdx 0 pg.edges
  pidx.flatMap (fun a =>
    (pidx.filter (fun b =>
      b.2.1 == a.2.2 &&
        !(b.2 == (a.2.2, a.2.1) &&
          vec3At pg.edata "bond_vec" b.1 == Vec3.neg (vec3At pg.edata "bond_vec" a.1)))).map
      (fun b => (a.1, b.1)))

/-- Modelled from the spec: `create_directed_line_graph(g, threebody_cutoff)` of
the missing `matgl/graph/compute.py`.  Identical guards and pruning as
`create_line_graph`; the pairing connects an incoming bond of an atom to each
outgoing bond of the same atom (head-to-tail), never pairing a bond with its own
reverse.  Because one vector of each pair points into the shared atom, the angles
computed on this line graph obey the documented π-shift convention
(theta_physical = π − theta_directed), which the spec's test
`test_directed_line_graph` exercises. -/
def create_directed_line_graph (g : MGraph) (threebody_cutoff : ℚ) : Option MGraph :=
  if threebody_cutoff ≤ 0 then none
  else
    match prune_edges_by_features g "bond_dist" (bondDistCond threebody_cutoff)
        true true with
    | none => none
    | some pg =>
      some { numNodes := pg.edges.length
             edges := directedPairs pg
             lattice := none
             ndata := pg.edata
             edata := [] }

/-- The clipped represented cosine of the two bond vectors at the endpoints of a
line-graph edge. -/
def lgCosReps (lg : MGraph) : List (ℤ × ℚ) :=
  lg.edges.map (fun e =>
    clipRep (cosRep (vec3At lg.ndata "bond_vec" e.1) (vec3At lg.ndata "bond_vec" e.2)))

/-- The cos_theta attribute values written by the angular feature engine. -/
def cosThetaVals (lg : MGraph) : List AttrVal :=
  (lgCosReps lg).map (fun r => AttrVal.c r.1 r.2)

/-- The theta attribute values written by `compute_theta`:
`arccos (epsFactor * cos_theta)` in exact representation. -/
def thetaVals (lg : MGraph) : List AttrVal :=
  (lgCosReps lg).map (fun r => AttrVal.ac (epsScale r).1 (epsScale r).2)

/-- Modelled from the spec: the edge function `compute_theta_and_phi` of the
missing `matgl/graph/compute.py` (applied over all line-graph edges via
`apply_edges`).  Writes `cos_theta = clamp(dot(v_src, v_dst)/(|v_src|·|v_dst|), -1, 1)`
and the placeholder `phi = 0` on every edge; writes no `theta` attribute. -/
def compute_theta_and_phi (lg : MGraph) : MGraph :=
  { lg with
    edata := setAttr (setAttr lg.edata "cos_theta" (cosThetaVals lg)) "phi"
      (lg.edges.map (fun _ => AttrVal.q 0)) }

/-- Modelled from the spec: the edge function `compute_theta(cosine, directed)` of
the missing `matgl/graph/compute.py`.  Writes the same `cos_theta` as
`compute_theta_and_phi`; when `cosine` is false it additionally writes
`theta = arccos(cos_theta * (1 - 1e-7))`; the `directed` flag is informational and
does not change the computation. -/
def compute_theta (lg : MGraph) (cosine : Bool) (directed : Bool) : MGraph :=
  if cosine then { lg with edata := setAttr lg.edata "cos_theta" (cosThetaVals lg) }
  else
    { lg with
      edata := setAttr (setAttr lg.edata "cos_theta" (cosThetaVals lg)) "theta"
        (thetaVals lg) }

/-- The displacement contributed by the periodic image offset: offset·lattice
(zero when the graph has no lattice). -/
def latticeShift (lat : Option (Vec3 × Vec3 × Vec3)) (off : Vec3) : Vec3 :=
  match lat with
  | none => default
  | some l => Vec3.add (Vec3.smul off.x l.1) (Vec3.add (Vec3.smul off.y l.2.1) (Vec3.smul off.z l.2.2))

/-- Position of node `i` (attribute "pos"). -/
def posAt (g : MGraph) (i : ℕ) : Vec3 := vec3At g.ndata "pos" i

/-- Periodic image offset of edge `e` (attribute "pbc_offset"; zero when absent,
the molecular case). -/
def offAt (g : MGraph) (e : ℕ) : Vec3 := vec3At g.edata "pbc_offset" e

/-- Modelled from the spec: the bond vectors computed by
`compute_pair_vector_and_distance` of the missing `matgl/graph/compute.py` —
for each edge i→j, `pos[j] + offset·lattice − pos[i]`, in edge-list order. -/
def bondVectors (g : MGraph) : List Vec3 :=
  (withIdx 0 g.edges).map (fun pe =>
    Vec3.sub (Vec3.add (posAt g pe.2.2) (latticeShift g.lattice (offAt g pe.1)))
      (posAt g pe.2.1))

/-- Modelled from the spec: the bond distances computed by
`compute_pair_vector_and_distance` — the Euclidean norms of the bond vectors. -/
noncomputable def bondDistances (g : MGraph) : List ℝ :=
  (bondVectors g).map (fun v => Real.sqrt ((Vec3.normSq v : ℚ) : ℝ))

/-- Modelled from the spec: `compute_pair_vector_and_distance(g)` of the missing
`matgl/graph/compute.py`, returning the per-edge bond vectors and distances. -/
noncomputable def compute_pair_vector_and_distance (g : MGraph) :
    List Vec3 × List ℝ :=
  (bondVectors g, bondDistances g)

/-- A vector as a point of Euclidean 3-space (for stating norm equalities). -/
noncomputable def toEuc (v : Vec3) : EuclideanSpace ℝ (Fin 3) :=
  ![((v.x : ℚ) : ℝ), ((v.y : ℚ) : ℝ), ((v.z : ℚ) : ℝ)]

/-- Maximal runs of consecutive elements with equal key.  For a list whose keys
are sorted this reproduces the block structure that `torch.unique(...,
return_counts=True)` induces in the test's brute-force loops. -/
def runs {α : Type*} (k : α → ℕ) : List α → List (List α)
  | [] => []
  | x :: xs =>
    match runs k xs with
    | [] => [[x]]
    | [] :: rss => [x] :: [] :: rss
    | (y :: rs) :: rss =>
      if k x == k y then (x :: y :: rs) :: rss else [x] :: (y :: rs) :: rss

/-- Whether the bond vector `v` passes the brute-force loop's distance test
`np.linalg.norm(v) <= cutoff`, stated on squares (equivalent for `0 ≤ cutoff`). -/
def distOKQ (cutoff : ℚ) (v : Vec3) : Bool := decide (Vec3.normSq v ≤ cutoff * cutoff)

/-- Embedding of the brute-force reference `_calculate_cos_loop` from
`tests/graph/test_compute.py`: group the edges into blocks of equal source atom
(`torch.unique` counts, valid because the test graphs list edges grouped by
source), and for every ordered pair of distinct positions in a block whose bond
vectors both pass the cutoff test, record the represented cosine
dot(vi,vj)/(|vi|·|vj|). -/
def bruteCosList (g : MGraph) (threebody_cutoff : ℚ) : List (ℤ × ℚ) :=
  (runs (fun r => r.2) (withIdx 0 (g.edges.map (fun e => e.1)))).flatMap (fun blk =>
    blk.flatMap (fun p =>
      (blk.filter (fun r => r.1 != p.1)).filterMap (fun r =>
        if distOKQ threebody_cutoff (vec3At g.edata "bond_vec" p.1) &&
            distOKQ threebody_cutoff (vec3At g.edata "bond_vec" r.1) then
          some (cosRep (vec3At g.edata "bond_vec" p.1) (vec3At g.edata "bond_vec" r.1))
        else none)))

/-- Structural well-formedness of an atomic graph: edge endpoints in range and
edges listed grouped by (weakly increasing) source atom, as produced by the
structure-to-graph converter and assumed by the brute-force loops. -/
def sortedNat : List ℕ → Bool
  | [] => true
  | [_] => true
  | a :: b :: rest => decide (a ≤ b) && sortedNat (b :: rest)

def wfStructure (g : MGraph) : Bool :=
  g.edges.all (fun e => decide (e.1 < g.numNodes) && decide (e.2 < g.numNodes)) &&
    sortedNat (g.edges.map (fun e => e.1))

/-- Attribute `name` is a list of 3-vectors of length `len`. -/
def attrIsV3List (store : List (String × List AttrVal)) (name : String) (len : ℕ) :
    Bool :=
  match getAttr store name with
  | some l => decide (l.length = len) && l.all AttrVal.isV3
  | none => false

/-- Attribute `name` is a list of rational scalars of length `len`. -/
def attrIsQList (store : List (String × List AttrVal)) (name : String) (len : ℕ) :
    Bool :=
  match getAttr store name with
  | some l => decide (l.length = len) && l.all AttrVal.isQ
  | none => false

/-- The graph carries populated `bond_vec` and `bond_dist` edge attributes. -/
def wfBonds (g : MGraph) : Bool :=
  attrIsV3List g.edata "bond_vec" g.edges.length &&
    attrIsQList g.edata "bond_dist" g.edges.length

/-- Each `bond_dist` entry is the Euclidean norm of the matching `bond_vec` entry
(nonnegative with square equal to the squared norm). -/
def distMatchesVec (g : MGraph) : Bool :=
  (List.range g.edges.length).all (fun i =>
    decide (0 ≤ qAt g.edata "bond_dist" i) &&
      decide ((qAt g.edata "bond_dist" i) * (qAt g.edata "bond_dist" i) =
        Vec3.normSq (vec3At g.edata "bond_vec" i)))

/-- Combined well-formedness hypothesis for an atomic graph fed to the line-graph
builders: structure, populated bond data, and distances consistent with vectors. -/
def wfInput (g : MGraph) : Bool :=
  wfStructure g && wfBonds g && distMatchesVec g

/-- Edge `e'` is the reverse periodic image of edge `e`: endpoints swapped and
bond vector negated. -/
def isRevPair (g : MGraph) (e e' : ℕ) : Bool :=
  g.edges.getD e' (0, 0) == ((g.edges.getD e (0, 0)).2, (g.edges.getD e (0, 0)).1) &&
    vec3At g.edata "bond_vec" e' == Vec3.neg (vec3At g.edata "bond_vec" e)

/-- Every directed edge has a reverse mate in the graph (the atomic graphs built
by the converter contain both directions of each physical bond). -/
def hasReverses (g : MGraph) : Bool :=
  (List.range g.edges.length).all (fun e =>
    (List.range g.edges.length).any (fun f => f != e && isRevPair g e f))

/-- No two distinct edge indices carry the same endpoints and bond vector. -/
def noDupEdges (g : MGraph) : Bool :=
  decide (((List.range g.edges.length).map
    (fun i => (g.edges.getD i (0, 0), vec3At g.edata "bond_vec" i))).Nodup)

/-- The index of the reverse mate of edge `e` (0 when none exists). -/
def revIdx (g : MGraph) (e : ℕ) : ℕ :=
  match (List.range g.edges.length).find? (fun f => f != e && isRevPair g e f) with
  | some f => f
  | none => 0

/-- Embedding of Python's `str.split(sep)` on character lists: split at every
occurrence of `sep`, keeping empty fragments; the result is always nonempty. -/
def pySplit (sep : Char) : List Char → List (List Char)
  | [] => [[]]
  | ch :: cs =>
    match pySplit sep cs with
    | [] => [[ch]]
    | h :: t => if ch == sep then [] :: h :: t else (ch :: h) :: t

/-- `uri.split("/")[-1]` of `ModelSource.__init__` (matgl/utils/data.py). -/
def modelName (uri : List Char) : List Char := (pySplit '/' uri).getLastD []

/-- Specification-side description of the model name: the suffix of the URI after
its last '/' (the whole URI when it contains no '/'). -/
def afterLastSlash (uri : List Char) : List Char :=
  (uri.reverse.takeWhile (fun c => c != '/')).reverse

/-- A file location: inside the pretrained-models cache directory
(`PRETRAINED_MODELS_PATH/name`) or relative to the current working directory. -/
inductive PathLoc where
  | cache (name : List Char)
  | cwd (name : List Char)
deriving DecidableEq, Repr

/-- Filesystem state visible to `ModelSource.__init__`: whether the cache
directory exists, and the files present with their contents. -/
structure FS where
  cacheDirExists : Bool
  files : List (PathLoc × List Char)
deriving DecidableEq, Repr

/-- Whether a file exists at a location. -/
def FS.fileExists (fs : FS) (p : PathLoc) : Bool := fs.files.any (fun f => f.1 == p)

/-- Content of the file at a location (first, i.e. most recent, entry). -/
def FS.contentAt (fs : FS) (p : PathLoc) : Option (List Char) :=
  match fs.files.find? (fun f => f.1 == p) with
  | some f => some f.2
  | none => none

/-- Result of `ModelSource.__init__`: the computed fields, the filesystem after
any directory creation and download, and whether a download was performed. -/
structure InitResult where
  model_name : List Char
  local_path : PathLoc
  fs : FS
  downloaded : Bool
deriving DecidableEq, Repr

/-- Embedding of `ModelSource.__init__` (src/matgl/utils/data.py): compute
`model_name = uri.split("/")[-1]`; with `use_cache` create the cache directory if
missing and place `local_path` there, otherwise place it in the current working
directory; download (an HTTP GET of `uri`, whose body is `response`) to
`local_path` iff the file is absent or `force_download` is set. -/
def modelSourceInit (uri : List Char) (use_cache force_download : Bool)
    (response : List Char) (fs0 : FS) : InitResult :=
  let name := modelName uri
  let fs1 := if use_cache && !fs0.cacheDirExists then
      { fs0 with cacheDirExists := true } else fs0
  let lp := if use_cache then PathLoc.cache name else PathLoc.cwd name
  if !(fs1.fileExists lp) || force_download then
    { model_name := name, local_path := lp
      fs := { fs1 with files := (lp, response) :: fs1.files }, downloaded := true }
  else
    { model_name := name, local_path := lp, fs := fs1, downloaded := false }

/-- A 3-atom molecular graph (atom 0 bonded to atoms 1 and 2, both directions),
with exact bond data: vectors (3,4,0), (1,0,0) and their negations, distances 5
and 1.  Used as concrete input for witnesses and counterexamples. -/
def gMol : MGraph :=
  { numNodes := 3
    edges := [(0, 1), (0, 2), (1, 0), (2, 0)]
    lattice := none
    ndata := []
    edata :=
      [("bond_vec",
        [AttrVal.v3 ⟨3, 4, 0⟩, AttrVal.v3 ⟨1, 0, 0⟩,
         AttrVal.v3 ⟨-3, -4, 0⟩, AttrVal.v3 ⟨-1, 0, 0⟩]),
       ("bond_dist", [AttrVal.q 5, AttrVal.q 1, AttrVal.q 5, AttrVal.q 1])] }

/-- A 2-atom graph with two parallel bonds 0→1 (distinct periodic images):
the two bonds share both endpoints. -/
def gPar : MGraph :=
  { numNodes := 2
    edges := [(0, 1), (0, 1)]
    lattice := none
    ndata := []
    edata :=
      [("bond_vec", [AttrVal.v3 ⟨1, 0, 0⟩, AttrVal.v3 ⟨0, 1, 0⟩]),
       ("bond_dist", [AttrVal.q 1, AttrVal.q 1])] }

/-- A 2-edge graph with a scalar edge attribute "d" taking values 2 and 5. -/
def gPrune3 : MGraph :=
  { numNodes := 2
    edges := [(0, 1), (1, 0)]
    lattice := none
    ndata := []
    edata := [("d", [AttrVal.q 2, AttrVal.q 5])] }

/-- The pruning condition `x > 3` used with `gPrune3`. -/
def cond3 (v : AttrVal) : Bool := decide (3 < v.toQ)

/-- A small standalone line graph: two bond nodes with vectors (3,4,0) and
(1,0,0), one line-graph edge between them. -/
def lgPlain : MGraph :=
  { numNodes := 2
    edges := [(0, 1)]
    lattice := none
    ndata := [("bond_vec", [AttrVal.v3 ⟨3, 4, 0⟩, AttrVal.v3 ⟨1, 0, 0⟩])]
    edata := [] }

/-- A 2-atom periodic graph with positions, lattice and periodic offsets, for the
geometry-kernel witness. -/
def gGeo : MGraph :=
  { numNodes := 2
    edges := [(0, 1), (1, 0)]
    lattice := some (⟨10, 0, 0⟩, ⟨0, 10, 0⟩, ⟨0, 0, 10⟩)
    ndata := [("pos", [AttrVal.v3 ⟨0, 0, 0⟩, AttrVal.v3 ⟨1, 2, 2⟩])]
    edata := [("pbc_offset", [AttrVal.v3 ⟨0, 0, 0⟩, AttrVal.v3 ⟨1, 0, 0⟩])] }

/-- Source atom of edge `i` of the atomic graph. -/
def srcAtId (g : MGraph) (i : ℕ) : ℕ := (g.edges.getD i (0, 0)).1

/-- Destination atom of edge `i` of the atomic graph. -/
def dstAtId (g : MGraph) (i : ℕ) : ℕ := (g.edges.getD i (0, 0)).2

/-- Bond vector of edge `i` of the atomic graph. -/
def bvecAt (g : MGraph) (i : ℕ) : Vec3 := vec3At g.edata "bond_vec" i

/-- Bond distance of edge `i` of the atomic graph. -/
def bdistAt (g : MGraph) (i : ℕ) : ℚ := qAt g.edata "bond_dist" i

/-- Edge `i` survives the angular cutoff. -/
def keepId (g : MGraph) (cutoff : ℚ) (i : ℕ) : Bool := decide (bdistAt g i ≤ cutoff)

/-- Original indices of the edges surviving the angular cutoff, in order. -/
def retained (g : MGraph) (cutoff : ℚ) : List ℕ :=
  (List.range g.edges.length).filter (keepId g cutoff)

/-- Retained edges outgoing from `atom`, by original index, in order. -/
def atomIds (g : MGraph) (cutoff : ℚ) (atom : ℕ) : List ℕ :=
  (retained g cutoff).filter (fun i => srcAtId g i == atom)

/-- Canonical form of the atom-centered pair cosines: for every atom, for every
ordered pair of distinct retained outgoing bonds, the represented cosine of their
bond vectors. -/
def canonCos (g : MGraph) (cutoff : ℚ) : List (ℤ × ℚ) :=
  (List.range g.numNodes).flatMap (fun atom =>
    (atomIds g cutoff atom).flatMap (fun i =>
      ((atomIds g cutoff atom).filter (fun j => j != i)).map (fun j =>
        cosRep (bvecAt g i) (bvecAt g j))))

/-- The head-to-tail pairing condition of the directed line graph on original
edge indices: bond `j` starts at the head of bond `i` and is not its reverse. -/
def dirOKb (g : MGraph) (i j : ℕ) : Bool :=
  (srcAtId g j == dstAtId g i) &&
    !(g.edges.getD j (0, 0) == (dstAtId g i, srcAtId g i) &&
      bvecAt g j == Vec3.neg (bvecAt g i))

/-- Canonical form of the directed line-graph cosines, on original edge ids. -/
def canonDirCos (g : MGraph) (cutoff : ℚ) : List (ℤ × ℚ) :=
  (retained g cutoff).flatMap (fun i =>
    ((retained g cutoff).filter (dirOKb g i)).map (fun j =>
      cosRep (bvecAt g i) (bvecAt g j)))

/-- The graph produced by pruning at the angular cutoff with node and edge data
kept (the normal form of `prune_edges_by_features g "bond_dist" (x > cutoff)`). -/
def prunedGraph (g : MGraph) (cutoff : ℚ) : MGraph :=
  { numNodes := g.numNodes
    edges := (retained g cutoff).map (fun i => g.edges.getD i (0, 0))
    lattice := g.lattice
    ndata := g.ndata
    edata := setAttr
      (g.edata.map (fun p => (p.1, (retained g cutoff).map (fun i => p.2.getD i default))))
      "edge_ids" ((retained g cutoff).map AttrVal.n) }

/-- Normal form of the undirected line graph built at the angular cutoff. -/
def lineGraphOf (g : MGraph) (cutoff : ℚ) : MGraph :=
  { numNodes := (prunedGraph g cutoff).edges.length
    edges := (List.range g.numNodes).flatMap
      (atomPairs (withIdx 0 (prunedGraph g cutoff).edges))
    lattice := none
    ndata := (prunedGraph g cutoff).edata
    edata := [] }

/-- Normal form of the directed line graph built at the angular cutoff. -/
def dirLineGraphOf (g : MGraph) (cutoff : ℚ) : MGraph :=
  { numNodes := (prunedGraph g cutoff).edges.length
    edges := directedPairs (prunedGraph g cutoff)
    lattice := none
    ndata := (prunedGraph g cutoff).edata
    edata := [] }

/-- The atoms shared by two edges (as endpoint sets). -/
def sharedAtoms (e1 e2 : ℕ × ℕ) : Finset ℕ :=
  ({e1.1, e1.2} : Finset ℕ) ∩ ({e2.1, e2.2} : Finset ℕ)

/-- The retained edge indices as a finite set (same elements as `retained`). -/
def retainedFinset (g : MGraph) (cutoff : ℚ) : Finset ℕ :=
  (Finset.range g.edges.length).filter (fun i => keepId g cutoff i = true)

/-! ### Generic list lemmas used by the graph development -/

theorem getD_map_of_lt {α β : Type*} (f : α → β) (d : β) (d' : α) :
    ∀ (l : List α) (i : ℕ), i < l.length → (l.map f).getD i d = f (l.getD i d')
  | [], i, h => absurd h (by simp)
  | x :: xs, 0, _ => rfl
  | x :: xs, i + 1, h =>
    getD_map_of_lt f d d' xs i (by simpa using Nat.lt_of_succ_lt_succ h)

theorem flatMap_congr_mem {α β : Type*} {l : List α} {f g : α → List β}
    (h : ∀ a ∈ l, f a = g a) : l.flatMap f = l.flatMap g := by
  simp only [List.flatMap]
  rw [List.map_congr_left h]

theorem flatMap_nil_of {α β : Type*} {l : List α} {f : α → List β}
    (h : ∀ a ∈ l, f a = []) : l.flatMap f = [] := by
  rw [flatMap_congr_mem h]
  induction l with
  | nil => rfl
  | cons x xs ih => simpa using ih

theorem flatMap_filter_of_nil {α β : Type*} {l : List α} {f : α → List β}
    {p : α → Bool} (h : ∀ a ∈ l, p a = false → f a = []) :
    l.flatMap f = (l.filter p).flatMap f := by
  induction l with
  | nil => rfl
  | cons x xs ih =>
    have ih' := ih (fun a ha => h a (by simp [ha]))
    rcases hp : p x with _ | _
    · simp [hp, h x (by simp) hp, ih']
    · simp [hp, ih']

theorem filterMap_ite_eq_filter_map {α β : Type*} (l : List α) (p : α → Bool)
    (f : α → β) :
    l.filterMap (fun a => if p a then some (f a) else none) = (l.filter p).map f := by
  induction l with
  | nil => rfl
  | cons x xs ih =>
    rw [List.filterMap_cons, List.filter_cons]
    rcases hp : p x with _ | _
    · simpa using ih
    · simpa using ih

theorem withIdx_map_snd {α : Type*} : ∀ (n : ℕ) (l : List α),
    (withIdx n l).map (fun r => r.2) = l
  | _, [] => rfl
  | n, x :: xs => by simp [withIdx, withIdx_map_snd (n + 1) xs]

theorem withIdx_of_map {α β : Type*} (f : α → β) : ∀ (n : ℕ) (l : List α),
    withIdx n (l.map f) = (withIdx n l).map (fun r => (r.1, f r.2))
  | _, [] => rfl
  | n, x :: xs => by simp [withIdx, withIdx_of_map f (n + 1) xs]

theorem withIdx_map_fst {α : Type*} : ∀ (n : ℕ) (l : List α),
    (withIdx n l).map (fun r => r.1) = List.range' n l.length
  | _, [] => rfl
  | n, x :: xs => by simp [withIdx, withIdx_map_fst (n + 1) xs, List.range']

theorem mem_withIdx {α : Type*} (d : α) :
    ∀ {n : ℕ} {l : List α} {r : ℕ × α}, r ∈ withIdx n l →
      n ≤ r.1 ∧ r.1 - n < l.length ∧ r.2 = l.getD (r.1 - n) d := by
  intro n l
  induction l generalizing n with
  | nil => intro r h; simp [withIdx] at h
  | cons x xs ih =>
    intro r h
    rcases (by simpa [withIdx] using h : r = (n, x) ∨ r ∈ withIdx (n + 1) xs) with h | h
    · subst h; simp
    · obtain ⟨h1, h2, h3⟩ := ih h
      have hn : n ≤ r.1 := le_trans (Nat.le_succ n) h1
      refine ⟨hn, ?_, ?_⟩
      · have : r.1 - n = (r.1 - (n + 1)) + 1 := by omega
        simpa [this] using Nat.succ_lt_succ h2
      · have : r.1 - n = (r.1 - (n + 1)) + 1 := by omega
        simpa [this] using h3

theorem mem_withIdx_zero {α : Type*} (d : α) {l : List α} {r : ℕ × α}
    (h : r ∈ withIdx 0 l) : r.1 < l.length ∧ r.2 = l.getD r.1 d := by
  obtain ⟨-, h2, h3⟩ := mem_withIdx d h
  rw [Nat.sub_zero] at h2 h3
  exact ⟨h2, h3⟩

theorem withIdx_filter_snd {α : Type*} (p : α → Bool) (n : ℕ) (l : List α) :
    ((withIdx n l).filter (fun r => p r.2)).map (fun r => r.2) = l.filter p := by
  induction l generalizing n with
  | nil => rfl
  | cons x xs ih =>
    rcases hp : p x with _ | _
    · simpa [withIdx, hp] using ih (n + 1)
    · simpa [withIdx, hp] using ih (n + 1)

theorem nodup_map_mem_inj {α β : Type*} {l : List α} {f : α → β}
    (h : (l.map f).Nodup) : ∀ a ∈ l, ∀ b ∈ l, f a = f b → a = b := by
  induction l with
  | nil => intro a ha; simp at ha
  | cons x xs ih =>
    rw [List.map_cons, List.nodup_cons] at h
    intro a ha b hb hab
    rcases (by simpa using ha : a = x ∨ a ∈ xs) with ha' | ha' <;>
      rcases (by simpa using hb : b = x ∨ b ∈ xs) with hb' | hb'
    · rw [ha', hb']
    · exact absurd (ha' ▸ hab ▸ List.mem_map_of_mem f hb') h.1
    · exact absurd (hb' ▸ hab.symm ▸ List.mem_map_of_mem f ha') h.1
    · exact ih h.2 a ha' b hb' hab

theorem withIdx_fst_nodup {α : Type*} (n : ℕ) (l : List α) :
    ((withIdx n l).map (fun r => r.1)).Nodup := by
  rw [withIdx_map_fst]
  exact List.nodup_range' n l.length

/-! ### Runs of a sorted list: the block structure of the brute-force loops -/

theorem mem_takeWhile_key {α : Type*} {p : α → Bool} :
    ∀ {l : List α} {y : α}, y ∈ l.takeWhile p → p y = true := by
  intro l
  induction l with
  | nil => intro y h; simp [List.takeWhile] at h
  | cons x xs ih =>
    intro y h
    rcases hp : p x with _ | _
    · rw [List.takeWhile_cons, hp] at h; simp at h
    · rw [List.takeWhile_cons, hp] at h
      rcases (by simpa using h : y = x ∨ y ∈ xs.takeWhile p) with h' | h'
      · rw [h']; exact hp
      · exact ih h'

theorem dropWhile_head_false {α : Type*} {p : α → Bool} :
    ∀ {l : List α} {y : α} {ys : List α}, l.dropWhile p = y :: ys → p y = false := by
  intro l
  induction l with
  | nil => intro y ys h; simp [List.dropWhile] at h
  | cons x xs ih =>
    intro y ys h
    rcases hp : p x with _ | _
    · rw [List.dropWhile_cons, hp] at h
      simp only [Bool.false_eq_true, if_false, List.cons.injEq] at h
      rw [← h.1]; exact hp
    · rw [List.dropWhile_cons, hp] at h
      exact ih (by simpa using h)

theorem runs_cons_span {α : Type*} (k : α → ℕ) :
    ∀ (x : α) (xs : List α),
      runs k (x :: xs) =
        (x :: xs.takeWhile (fun y => k y == k x)) ::
          runs k (xs.dropWhile (fun y => k y == k x)) := by
  intro x xs
  induction xs generalizing x with
  | nil => rfl
  | cons z zs ih =>
    rcases hz : (k z == k x) with _ | _
    · have hxz : (k x == k z) = false := by
        simp only [beq_eq_false_iff_ne] at hz ⊢
        exact fun h => hz h.symm
      have hrw : runs k (x :: z :: zs) = [x] :: runs k (z :: zs) := by
        show (match runs k (z :: zs) with
          | [] => [[x]]
          | [] :: rss => [x] :: [] :: rss
          | (y :: rs) :: rss =>
            if k x == k y then (x :: y :: rs) :: rss else [x] :: (y :: rs) :: rss) = _
        rw [ih z]
        simp [hxz]
      rw [hrw, List.takeWhile_cons, List.dropWhile_cons, hz]
      simp
    · have hzx : k z = k x := by simpa using hz
      have hxz : (k x == k z) = true := by simp [hzx]
      have hfun : (fun y => k y == k z) = (fun y => k y == k x) := by
        funext y; rw [hzx]
      have hrw : runs k (x :: z :: zs) =
          (x :: z :: zs.takeWhile (fun y => k y == k z)) ::
            runs k (zs.dropWhile (fun y => k y == k z)) := by
        show (match runs k (z :: zs) with
          | [] => [[x]]
          | [] :: rss => [x] :: [] :: rss
          | (y :: rs) :: rss =>
            if k x == k y then (x :: y :: rs) :: rss else [x] :: (y :: rs) :: rss) = _
        rw [ih z]
        simp [hxz]
      rw [hrw, hfun, List.takeWhile_cons, List.dropWhile_cons, hz]
      simp

theorem sorted_tail_ge {α : Type*} {k : α → ℕ} {x : α} {xs : List α}
    (h : List.Pairwise (fun a b => k a ≤ k b) (x :: xs)) :
    ∀ y ∈ xs, k x ≤ k y := by
  rw [List.pairwise_cons] at h
  exact h.1

theorem sorted_dropWhile_gt {α : Type*} {k : α → ℕ} :
    ∀ {x : α} {xs : List α},
      List.Pairwise (fun a b => k a ≤ k b) (x :: xs) →
      ∀ y ∈ xs.dropWhile (fun y => k y == k x), k x < k y := by
  intro x xs
  induction xs generalizing x with
  | nil => intro _ y hy; simp [List.dropWhile] at hy
  | cons z zs ih =>
    intro h y hy
    rw [List.dropWhile_cons] at hy
    rcases hz : (k z == k x) with _ | _
    · rw [hz] at hy
      simp only [Bool.false_eq_true, if_neg] at hy
      have hle : ∀ w ∈ z :: zs, k x ≤ k w := sorted_tail_ge h
      rcases (by simpa using hy : y = z ∨ y ∈ zs) with h' | h'
      · subst h'
        exact lt_of_le_of_ne (hle y (by simp)) (fun he => by simp [he] at hz)
      · have hz' : k z ≤ k y := by
          have hp : List.Pairwise (fun a b => k a ≤ k b) (z :: zs) :=
            h.sublist (List.sublist_cons_self x (z :: zs))
          exact sorted_tail_ge hp y h'
        calc k x < k z :=
              lt_of_le_of_ne (hle z (by simp)) (fun he => by simp [he] at hz)
          _ ≤ k y := hz'
    · rw [hz] at hy
      simp only [if_pos] at hy
      have hzx : k z = k x := by simpa using hz
      have hp : List.Pairwise (fun a b => k a ≤ k b) (z :: zs) :=
        h.sublist (List.sublist_cons_self x (z :: zs))
      have hfun : (fun y => k y == k z) = (fun y => k y == k x) := by
        funext w; rw [hzx]
      rw [← hfun] at hy
      have := ih hp y hy
      calc k x = k z := hzx.symm
        _ < k y := this

theorem runs_flatMap_sorted {α β : Type*} (k : α → ℕ) (g : List α → List β)
    (hg : g [] = []) (N : ℕ) :
    ∀ (L : List α), List.Pairwise (fun a b => k a ≤ k b) L →
      (∀ a ∈ L, k a < N) →
      (runs k L).flatMap g =
        (List.range N).flatMap (fun t => g (L.filter (fun y => k y == t))) := by
  have main : ∀ (n : ℕ) (L : List α), L.length ≤ n →
      List.Pairwise (fun a b => k a ≤ k b) L → (∀ a ∈ L, k a < N) →
      (runs k L).flatMap g =
        (List.range N).flatMap (fun t => g (L.filter (fun y => k y == t))) := by
    intro n
    induction n with
    | zero =>
      intro L hlen _ _
      have : L = [] := List.length_eq_zero.mp (Nat.le_zero.mp hlen)
      subst this
      simp only [runs, List.flatMap_nil, List.filter_nil]
      exact (flatMap_nil_of (fun a _ => hg)).symm
    | succ n ih =>
      intro L hlen hpw hbd
      match L with
      | [] =>
        simp only [runs, List.flatMap_nil, List.filter_nil]
        exact (flatMap_nil_of (fun a _ => hg)).symm
      | x :: xs =>
        have hkx : k x < N := hbd x (by simp)
        set A := xs.takeWhile (fun y => k y == k x) with hA
        set B := xs.dropWhile (fun y => k y == k x) with hB
        have hxs : A ++ B = xs := List.takeWhile_append_dropWhile _ _
        have hAmem : ∀ y ∈ A, k y = k x := by
          intro y hy
          simpa using mem_takeWhile_key hy
        have hBmem : ∀ y ∈ B, k x < k y := fun y hy => sorted_dropWhile_gt hpw y hy
        have hBsub : List.Sublist B xs := List.dropWhile_sublist _
        have hpwB : List.Pairwise (fun a b => k a ≤ k b) B :=
          hpw.sublist (hBsub.trans (List.sublist_cons_self x xs))
        have hbdB : ∀ a ∈ B, k a < N := fun a ha => hbd a (by
          simp only [List.mem_cons]
          exact Or.inr (hBsub.mem ha))
        have hlenB : B.length ≤ n := by
          have h1 : B.length ≤ xs.length := hBsub.length_le
          have h2 : xs.length ≤ n := by simpa using Nat.le_of_succ_le_succ hlen
          exact le_trans h1 h2
        have ihB := ih B hlenB hpwB hbdB
        -- filters of x :: xs by key value
        have hfilt_eq : (x :: xs).filter (fun y => k y == k x) = x :: A := by
          rw [List.filter_cons, if_pos (by simp), ← hxs, List.filter_append]
          have h1 : A.filter (fun y => k y == k x) = A :=
            List.filter_eq_self.mpr (fun a ha => by simp [hAmem a ha])
          have h2 : B.filter (fun y => k y == k x) = [] :=
            List.filter_eq_nil_iff.mpr (fun a ha => by
              simp only [beq_iff_eq]
              exact fun he => absurd he.symm (ne_of_lt (hBmem a ha)))
          rw [h1, h2, List.append_nil]
        have hfilt_ne : ∀ t, t ≠ k x →
            (x :: xs).filter (fun y => k y == t) = B.filter (fun y => k y == t) := by
          intro t ht
          rw [List.filter_cons, if_neg (by simpa using fun h => ht h.symm), ← hxs,
            List.filter_append]
          have h1 : A.filter (fun y => k y == t) = [] :=
            List.filter_eq_nil_iff.mpr (fun a ha => by
              simp only [beq_iff_eq]
              rw [hAmem a ha]
              exact fun h => ht h.symm)
          rw [h1, List.nil_append]
        have hfilt_B_le : ∀ t, t ≤ k x → B.filter (fun y => k y == t) = [] := by
          intro t ht
          exact List.filter_eq_nil_iff.mpr (fun a ha => by
            simp only [beq_iff_eq]
            exact fun he => absurd (he ▸ ht) (not_le_of_lt (hBmem a ha)))
        -- decompose range N around k x
        have hNsplit : List.range N =
            (List.range (k x) ++ [k x]) ++ List.range' (k x + 1) (N - (k x + 1)) := by
          rw [← List.range_succ, List.range_eq_range', List.range_eq_range']
          have h1 := List.range'_append_1 0 (k x + 1) (N - (k x + 1))
          simp only [Nat.zero_add] at h1
          rw [show N - (k x + 1) + (k x + 1) = N from by omega] at h1
          rw [Nat.succ_eq_add_one]
          exact h1.symm
        -- left side
        rw [runs_cons_span, List.flatMap_cons, ihB, hNsplit]
        rw [List.flatMap_append, List.flatMap_append, List.flatMap_append,
          List.flatMap_append]
        have hzero1 : (List.range (k x)).flatMap
            (fun t => g (B.filter (fun y => k y == t))) = [] :=
          flatMap_nil_of (fun t ht => by
            rw [hfilt_B_le t (le_of_lt (by simpa using ht))]; exact hg)
        have hzero2 : (List.range (k x)).flatMap
            (fun t => g ((x :: xs).filter (fun y => k y == t))) = [] :=
          flatMap_nil_of (fun t ht => by
            have htlt : t < k x := by simpa using ht
            rw [hfilt_ne t (ne_of_lt htlt), hfilt_B_le t (le_of_lt htlt)]
            exact hg)
        have hsing1 : ([k x] : List ℕ).flatMap
            (fun t => g (B.filter (fun y => k y == t))) = [] := by
          simp only [List.flatMap_cons, List.flatMap_nil, List.append_nil]
          rw [hfilt_B_le (k x) le_rfl]; exact hg
        have hsing2 : ([k x] : List ℕ).flatMap
            (fun t => g ((x :: xs).filter (fun y => k y == t))) = g (x :: A) := by
          simp only [List.flatMap_cons, List.flatMap_nil, List.append_nil]
          rw [hfilt_eq]
        have htail : (List.range' (k x + 1) (N - (k x + 1))).flatMap
              (fun t => g ((x :: xs).filter (fun y => k y == t))) =
            (List.range' (k x + 1) (N - (k x + 1))).flatMap
              (fun t => g (B.filter (fun y => k y == t))) :=
          flatMap_congr_mem (fun t ht => by
            have : k x + 1 ≤ t := (List.mem_range'_1.mp ht).1
            rw [hfilt_ne t (by omega)])
        rw [hzero1, hzero2, hsing1, hsing2, htail]
        simp

  intro L hpw hbd
  exact main L.length L le_rfl hpw hbd

/-! ### Attribute store lemmas -/

theorem getAttr_cons (p : String × List AttrVal) (s : List (String × List AttrVal))
    (name : String) :
    getAttr (p :: s) name = if p.1 == name then some p.2 else getAttr s name := by
  rcases hp : (p.1 == name) with _ | _
  · simp [getAttr, List.find?_cons, hp]
  · simp [getAttr, List.find?_cons, hp]

theorem getAttr_map_setter (ps : List (String × List AttrVal)) (name name' : String)
    (v : List AttrVal) (h : name' ≠ name) :
    getAttr (ps.map (fun p => if p.1 == name then (name, v) else p)) name' =
      getAttr ps name' := by
  induction ps with
  | nil => rfl
  | cons p ps ih =>
    rw [List.map_cons, getAttr_cons, getAttr_cons]
    rcases hp : (p.1 == name) with _ | _
    · have hp1 : ¬p.1 = name := by simpa using hp
      rcases hp' : (p.1 == name') with _ | _
      · have hp1' : ¬p.1 = name' := by simpa using hp'
        simpa [hp1, hp1'] using ih
      · have hp1' : p.1 = name' := by simpa using hp'
        simp [hp1, hp1']
    · have hp1 : p.1 = name := by simpa using hp
      have h1 : ¬name = name' := fun he => h he.symm
      have h2 : ¬p.1 = name' := by rw [hp1]; exact h1
      simpa [hp1, h1, h2] using ih

theorem getAttr_setAttr_self (s : List (String × List AttrVal)) (name : String)
    (v : List AttrVal) : getAttr (setAttr s name v) name = some v := by
  unfold setAttr
  rcases ha : s.any (fun p => p.1 == name) with _ | _
  · simp only [Bool.false_eq_true, if_false]
    induction s with
    | nil => simp [getAttr]
    | cons p ps ih =>
      simp only [List.any_cons, Bool.or_eq_false_iff] at ha
      rw [List.cons_append, getAttr_cons, ha.1]
      simpa using ih ha.2
  · simp only [if_true]
    induction s with
    | nil => simp at ha
    | cons p ps ih =>
      simp only [List.any_cons, Bool.or_eq_true] at ha
      rcases hp : (p.1 == name) with _ | _
      · have ha' : ps.any (fun r => r.1 == name) = true := by
          rcases ha with h | h
          · rw [hp] at h; exact absurd h (by simp)
          · exact h
        have hp1 : ¬p.1 = name := by simpa using hp
        simpa [List.map_cons, hp1, getAttr_cons] using ih ha'
      · have hp1 : p.1 = name := by simpa using hp
        simp [List.map_cons, hp1, getAttr_cons]

theorem getAttr_setAttr_ne (s : List (String × List AttrVal)) (name name' : String)
    (v : List AttrVal) (h : name' ≠ name) :
    getAttr (setAttr s name v) name' = getAttr s name' := by
  unfold setAttr
  rcases ha : s.any (fun p => p.1 == name) with _ | _
  · simp only [Bool.false_eq_true, if_false]
    induction s with
    | nil =>
      simp [getAttr, List.find?_cons, show (name == name') = false from by
        simpa using fun he => h he.symm]
    | cons p ps ih =>
      simp only [List.any_cons, Bool.or_eq_false_iff] at ha
      rw [List.cons_append, getAttr_cons, getAttr_cons]
      rcases hp : (p.1 == name') with _ | _
      · simpa [hp] using ih ha.2
      · simp [hp]
  · simp only [if_true]
    exact getAttr_map_setter s name name' v h

theorem getAttr_map_val (s : List (String × List AttrVal))
    (F : List AttrVal → List AttrVal) (name : String) :
    getAttr (s.map (fun p => (p.1, F p.2))) name = (getAttr s name).map F := by
  induction s with
  | nil => simp [getAttr]
  | cons p ps ih =>
    rw [List.map_cons, getAttr_cons, getAttr_cons]
    rcases hp : (p.1 == name) with _ | _
    · simpa [hp] using ih
    · simp [hp]

/-! ### Algebraic facts about vectors and represented cosines -/

theorem normSq_nonneg (v : Vec3) : 0 ≤ Vec3.normSq v := by
  have hx := mul_self_nonneg v.x
  have hy := mul_self_nonneg v.y
  have hz := mul_self_nonneg v.z
  unfold Vec3.normSq Vec3.dot
  linarith

theorem normSq_neg (v : Vec3) : Vec3.normSq (Vec3.neg v) = Vec3.normSq v := by
  unfold Vec3.normSq Vec3.dot Vec3.neg
  ring

theorem dot_neg_left (u v : Vec3) : Vec3.dot (Vec3.neg u) v = -(Vec3.dot u v) := by
  unfold Vec3.dot Vec3.neg
  ring

theorem lagrange_ineq (u v : Vec3) :
    (Vec3.dot u v) ^ 2 ≤ Vec3.normSq u * Vec3.normSq v := by
  unfold Vec3.normSq Vec3.dot
  nlinarith [sq_nonneg (u.x * v.y - u.y * v.x), sq_nonneg (u.x * v.z - u.z * v.x),
    sq_nonneg (u.y * v.z - u.z * v.y)]

theorem cosRep_sq_nonneg (u v : Vec3) : 0 ≤ (cosRep u v).2 :=
  div_nonneg (mul_self_nonneg _) (mul_nonneg (normSq_nonneg u) (normSq_nonneg v))

theorem cosRep_sq_le_one (u v : Vec3) : (cosRep u v).2 ≤ 1 := by
  unfold cosRep
  have hlag : (Vec3.dot u v) * (Vec3.dot u v) ≤ Vec3.normSq u * Vec3.normSq v := by
    have h1 := lagrange_ineq u v
    rw [pow_two] at h1
    exact h1
  rcases eq_or_lt_of_le (mul_nonneg (normSq_nonneg u) (normSq_nonneg v)) with h | h
  · rw [← h, div_zero]
    norm_num
  · exact (div_le_one h).mpr hlag

theorem clipRep_cosRep (u v : Vec3) : clipRep (cosRep u v) = cosRep u v := by
  unfold clipRep
  rw [if_neg (not_lt.mpr (cosRep_sq_le_one u v))]

theorem sgnQ_neg (a : ℚ) : sgnQ (-a) = -sgnQ a := by
  unfold sgnQ
  rcases lt_trichotomy a 0 with h | h | h
  · rw [if_pos (by linarith), if_neg (by linarith), if_pos h]
    norm_num
  · rw [h]; norm_num
  · rw [if_neg (by linarith), if_pos (by linarith), if_pos h]

theorem cosRep_neg_left (u v : Vec3) :
    cosRep (Vec3.neg u) v = negRep (cosRep u v) := by
  unfold cosRep negRep
  rw [dot_neg_left, normSq_neg, sgnQ_neg]
  congr 1
  ring

theorem le_iff_sq_le {d c : ℚ} (hd : 0 ≤ d) (hc : 0 < c) :
    d ≤ c ↔ d * d ≤ c * c := by
  constructor
  · intro h; nlinarith
  · intro h; nlinarith

theorem sgnQ_mul_abs (a : ℚ) : (sgnQ a : ℚ) * |a| = a := by
  unfold sgnQ
  rcases lt_trichotomy a 0 with h | h | h
  · rw [if_neg (by linarith), if_pos h, abs_of_neg h]
    push_cast
    ring
  · rw [h]; simp
  · rw [if_pos h, abs_of_pos h]
    push_cast
    ring

/-! ### Real-number interpretation lemmas -/

theorem epsFactor_cast : ((epsFactor : ℚ) : ℝ) = 1 - 1 / 10000000 := by
  unfold epsFactor
  push_cast
  ring

theorem epsFactor_nonneg : (0 : ℝ) ≤ ((epsFactor : ℚ) : ℝ) := by
  rw [epsFactor_cast]
  norm_num

theorem repReal_negRep (r : ℤ × ℚ) : repReal (negRep r) = -repReal r := by
  unfold repReal negRep
  push_cast
  ring

theorem repReal_epsScale (r : ℤ × ℚ) (h : 0 ≤ r.2) :
    repReal (epsScale r) = ((epsFactor : ℚ) : ℝ) * repReal r := by
  unfold repReal epsScale
  have hcast : ((epsFactor * epsFactor * r.2 : ℚ) : ℝ) =
      (((epsFactor : ℚ) : ℝ) * ((epsFactor : ℚ) : ℝ)) * ((r.2 : ℚ) : ℝ) := by
    push_cast; ring
  rw [hcast, Real.sqrt_mul (mul_self_nonneg _), Real.sqrt_mul_self epsFactor_nonneg]
  ring

theorem norm_toEuc (v : Vec3) :
    ‖toEuc v‖ = Real.sqrt ((Vec3.normSq v : ℚ) : ℝ) := by
  rw [EuclideanSpace.norm_eq]
  congr 1
  rw [Fin.sum_univ_three]
  unfold toEuc Vec3.normSq Vec3.dot
  simp only [Matrix.cons_val_zero, Matrix.cons_val_one, Matrix.head_cons,
    Matrix.cons_val_two, Matrix.tail_cons, Real.norm_eq_abs, sq_abs]
  push_cast
  ring

theorem repReal_cosRep (u v : Vec3) (hu : Vec3.normSq u ≠ 0)
    (hv : Vec3.normSq v ≠ 0) :
    repReal (cosRep u v) =
      ((Vec3.dot u v : ℚ) : ℝ) /
        (Real.sqrt ((Vec3.normSq u : ℚ) : ℝ) * Real.sqrt ((Vec3.normSq v : ℚ) : ℝ)) := by
  have hu' : (0 : ℝ) < ((Vec3.normSq u : ℚ) : ℝ) := by
    have := lt_of_le_of_ne (normSq_nonneg u) (Ne.symm hu)
    exact_mod_cast this
  have hv' : (0 : ℝ) < ((Vec3.normSq v : ℚ) : ℝ) := by
    have := lt_of_le_of_ne (normSq_nonneg v) (Ne.symm hv)
    exact_mod_cast this
  unfold repReal cosRep
  have hcast : (((Vec3.dot u v) * (Vec3.dot u v) / (Vec3.normSq u * Vec3.normSq v) : ℚ) : ℝ) =
      ((Vec3.dot u v : ℚ) : ℝ) * ((Vec3.dot u v : ℚ) : ℝ) /
        (((Vec3.normSq u : ℚ) : ℝ) * ((Vec3.normSq v : ℚ) : ℝ)) := by
    push_cast
    ring
  rw [hcast, Real.sqrt_div (mul_self_nonneg _), Real.sqrt_mul_self_eq_abs,
    Real.sqrt_mul (le_of_lt hu')]
  have habs : |((Vec3.dot u v : ℚ) : ℝ)| = ((|Vec3.dot u v| : ℚ) : ℝ) := by
    push_cast
    ring
  rw [habs]
  dsimp only
  rw [← mul_div_assoc]
  congr 1
  exact_mod_cast sgnQ_mul_abs (Vec3.dot u v)

theorem sgnQ_cast_abs_le_one (a : ℚ) : |((sgnQ a : ℤ) : ℝ)| ≤ 1 := by
  unfold sgnQ
  rcases lt_trichotomy a 0 with h | h | h
  · rw [if_neg (by linarith), if_pos h]
    norm_num
  · rw [h]
    norm_num
  · rw [if_pos h]
    norm_num

theorem abs_repReal_le_one (r : ℤ × ℚ) (hs : |((r.1 : ℤ) : ℝ)| ≤ 1)
    (hq : r.2 ≤ 1) : |repReal r| ≤ 1 := by
  unfold repReal
  rw [abs_mul, abs_of_nonneg (Real.sqrt_nonneg _)]
  have h1 : Real.sqrt ((r.2 : ℚ) : ℝ) ≤ 1 := by
    rw [show (1 : ℝ) = Real.sqrt 1 from (Real.sqrt_one).symm]
    exact Real.sqrt_le_sqrt (by exact_mod_cast hq)
  calc |((r.1 : ℤ) : ℝ)| * Real.sqrt ((r.2 : ℚ) : ℝ)
      ≤ 1 * 1 := by
        exact mul_le_mul hs h1 (Real.sqrt_nonneg _) (by norm_num)
    _ = 1 := by norm_num

/-! ### Normal forms of the pruning and line-graph builders -/

theorem keptIds_eq_retained (g : MGraph) (cutoff : ℚ) (vals : List AttrVal)
    (h : getAttr g.edata "bond_dist" = some vals) :
    keptIds vals (bondDistCond cutoff) g.edges.length = retained g cutoff := by
  unfold keptIds retained
  apply List.filter_congr
  intro i _
  have hbd : bdistAt g i = (vals.getD i default).toQ := by
    unfold bdistAt qAt
    rw [h]
  unfold keepId bondDistCond
  rw [hbd, ← decide_not]
  exact decide_eq_decide.mpr not_lt

theorem prune_eq_prunedGraph (g : MGraph) (cutoff : ℚ) (vals : List AttrVal)
    (h : getAttr g.edata "bond_dist" = some vals) :
    prune_edges_by_features g "bond_dist" (bondDistCond cutoff) true true =
      some (prunedGraph g cutoff) := by
  unfold prune_edges_by_features
  rw [h]
  simp only [if_true]
  rw [keptIds_eq_retained g cutoff vals h]
  rfl

theorem create_line_graph_eq (g : MGraph) (cutoff : ℚ) (vals : List AttrVal)
    (h : getAttr g.edata "bond_dist" = some vals) (hc : 0 < cutoff) :
    create_line_graph g cutoff = some (lineGraphOf g cutoff) := by
  unfold create_line_graph
  rw [if_neg (not_le.mpr hc), prune_eq_prunedGraph g cutoff vals h]
  rfl

theorem create_directed_line_graph_eq (g : MGraph) (cutoff : ℚ) (vals : List AttrVal)
    (h : getAttr g.edata "bond_dist" = some vals) (hc : 0 < cutoff) :
    create_directed_line_graph g cutoff = some (dirLineGraphOf g cutoff) := by
  unfold create_directed_line_graph
  rw [if_neg (not_le.mpr hc), prune_eq_prunedGraph g cutoff vals h]
  rfl

theorem prunedGraph_getAttr_ne (g : MGraph) (cutoff : ℚ) (name : String)
    (h : name ≠ "edge_ids") :
    getAttr (prunedGraph g cutoff).edata name =
      (getAttr g.edata name).map
        (fun vs => (retained g cutoff).map (fun i => vs.getD i default)) := by
  unfold prunedGraph
  rw [getAttr_setAttr_ne _ _ _ _ h]
  exact getAttr_map_val g.edata
    (fun vs => (retained g cutoff).map (fun i => vs.getD i default)) name

theorem prunedGraph_edge_ids (g : MGraph) (cutoff : ℚ) :
    getAttr (prunedGraph g cutoff).edata "edge_ids" =
      some ((retained g cutoff).map AttrVal.n) := by
  unfold prunedGraph
  exact getAttr_setAttr_self _ _ _

theorem retained_nodup (g : MGraph) (cutoff : ℚ) : (retained g cutoff).Nodup :=
  (List.nodup_range _).filter _

theorem mem_retained (g : MGraph) (cutoff : ℚ) (i : ℕ) :
    i ∈ retained g cutoff ↔ i < g.edges.length ∧ keepId g cutoff i = true := by
  unfold retained
  rw [List.mem_filter, List.mem_range]

theorem prunedVec_eq (g : MGraph) (cutoff : ℚ) (bvl : List AttrVal)
    (hbv : getAttr g.edata "bond_vec" = some bvl) (p : ℕ)
    (hp : p < (retained g cutoff).length) :
    vec3At (prunedGraph g cutoff).edata "bond_vec" p =
      bvecAt g ((retained g cutoff).getD p 0) := by
  unfold vec3At
  rw [prunedGraph_getAttr_ne g cutoff "bond_vec" (by decide), hbv]
  simp only [Option.map_some']
  rw [getD_map_of_lt _ _ 0 _ p hp]
  unfold bvecAt vec3At
  rw [hbv]

/-! ### Transport of pair enumerations along projections -/

theorem filterMap_congr_mem {α β : Type*} {l : List α} {f g : α → Option β}
    (h : ∀ a ∈ l, f a = g a) : l.filterMap f = l.filterMap g := by
  induction l with
  | nil => rfl
  | cons x xs ih =>
    rw [List.filterMap_cons, List.filterMap_cons, h x (by simp),
      ih (fun a ha => h a (by simp [ha]))]

theorem filter_map_comp {α β : Type*} (l : List α) (f : α → β) (p : β → Bool) :
    (l.filter (fun a => p (f a))).map f = (l.map f).filter p := by
  rw [List.filter_map]
  rfl

theorem pairs_projection {α β γ : Type*} (W : List α) (f : α → β)
    (pb : β → β → Bool) (F : β → β → γ) :
    W.flatMap (fun a => (W.filter (fun b => pb (f b) (f a))).map
        (fun b => F (f a) (f b))) =
      (W.map f).flatMap (fun i => ((W.map f).filter (fun j => pb j i)).map
        (fun j => F i j)) := by
  symm
  rw [List.flatMap_map]
  apply flatMap_congr_mem
  intro a _
  rw [← filter_map_comp W f (fun j => pb j (f a)), List.map_map]
  rfl

theorem map_filter_mem_congr {α β : Type*} {W : List α} {p q : α → Bool}
    {F G : α → β} (hpq : ∀ a ∈ W, p a = q a) (hFG : ∀ a ∈ W, F a = G a) :
    (W.filter p).map F = (W.filter q).map G := by
  rw [List.filter_congr hpq]
  exact List.map_congr_left (fun a ha => hFG a (List.mem_of_mem_filter ha))

theorem sortedNat_head_le : ∀ {l : List ℕ} {a : ℕ}, sortedNat (a :: l) = true →
    ∀ x ∈ l, a ≤ x := by
  intro l
  induction l with
  | nil => intro a _ x hx; simp at hx
  | cons b rest ih =>
    intro a h x hx
    obtain ⟨hab, hbl⟩ := (Bool.and_eq_true _ _).mp h
    have hab' : a ≤ b := of_decide_eq_true hab
    rcases (by simpa using hx : x = b ∨ x ∈ rest) with h' | h'
    · rw [h']; exact hab'
    · exact le_trans hab' (ih hbl x h')

theorem sortedNat_pairwise : ∀ {l : List ℕ}, sortedNat l = true →
    List.Pairwise (fun a b => a ≤ b) l := by
  intro l
  induction l with
  | nil => intro _; exact List.Pairwise.nil
  | cons a rest ih =>
    intro h
    have htail : sortedNat rest = true := by
      cases rest with
      | nil => rfl
      | cons b r => exact ((Bool.and_eq_true _ _).mp h).2
    exact List.pairwise_cons.mpr ⟨sortedNat_head_le h, ih htail⟩

/-! ### The brute-force loop in canonical form -/

theorem bruteCosList_eq_canonCos (g : MGraph) (cutoff : ℚ)
    (hst : wfStructure g = true) (hdm : distMatchesVec g = true) (hc : 0 < cutoff) :
    bruteCosList g cutoff = canonCos g cutoff := by
  -- extract the structural hypotheses
  have hparts := (Bool.and_eq_true _ _).mp hst
  have hbound : ∀ e ∈ g.edges, e.1 < g.numNodes := by
    intro e he
    have h1 := (List.all_eq_true.mp hparts.1) e he
    have h2 := (Bool.and_eq_true _ _).mp h1
    exact of_decide_eq_true h2.1
  have hsorted : List.Pairwise (fun a b => a ≤ b) (g.edges.map (fun e => e.1)) :=
    sortedNat_pairwise hparts.2
  have hdm' : ∀ i, i < g.edges.length →
      0 ≤ qAt g.edata "bond_dist" i ∧
        (qAt g.edata "bond_dist" i) * (qAt g.edata "bond_dist" i) =
          Vec3.normSq (vec3At g.edata "bond_vec" i) := by
    intro i hi
    have h1 := (List.all_eq_true.mp hdm) i (List.mem_range.mpr hi)
    have h2 := (Bool.and_eq_true _ _).mp h1
    exact ⟨of_decide_eq_true h2.1, of_decide_eq_true h2.2⟩
  have hkeep : ∀ i, i < g.edges.length →
      distOKQ cutoff (vec3At g.edata "bond_vec" i) = keepId g cutoff i := by
    intro i hi
    obtain ⟨h0, hsq⟩ := hdm' i hi
    unfold distOKQ keepId bdistAt
    apply decide_eq_decide.mpr
    rw [← hsq]
    exact ((le_iff_sq_le h0 hc).symm)
  -- abbreviations
  set srcs : List ℕ := g.edges.map (fun e => e.1) with hsrcs
  set R : List (ℕ × ℕ) := withIdx 0 srcs with hR
  have hRsnd : R.map (fun r => r.2) = srcs := withIdx_map_snd 0 srcs
  have hpwR : List.Pairwise (fun a b : ℕ × ℕ => a.2 ≤ b.2) R := by
    have := hsorted
    rw [← hRsnd] at this
    exact (List.pairwise_map).mp this
  have hbdR : ∀ r ∈ R, r.2 < g.numNodes := by
    intro r hr
    have h1 : r.2 ∈ srcs := by
      rw [← hRsnd]
      exact List.mem_map_of_mem (fun r => r.2) hr
    obtain ⟨e, he, hee⟩ := List.mem_map.mp h1
    rw [← hee]
    exact hbound e he
  -- the brute-force list, block decomposition by the runs lemma
  unfold bruteCosList
  rw [runs_flatMap_sorted (fun r => r.2) _ rfl g.numNodes R hpwR hbdR]
  unfold canonCos
  apply flatMap_congr_mem
  intro t _
  set B : List (ℕ × ℕ) := R.filter (fun r => r.2 == t) with hB
  -- push the distance guard out of the loop body
  rw [flatMap_filter_of_nil (p := fun p => distOKQ cutoff (vec3At g.edata "bond_vec" p.1))
    (fun p _ hp => by
      apply List.filterMap_eq_nil_iff.mpr
      intro r _
      have hp' : distOKQ cutoff (vec3At g.edata "bond_vec" p.1) = false := hp
      rw [hp']
      rfl)]
  set K : List (ℕ × ℕ) :=
    B.filter (fun p => distOKQ cutoff (vec3At g.edata "bond_vec" p.1)) with hK
  have hinner : ∀ p ∈ K,
      (B.filter (fun r => r.1 != p.1)).filterMap (fun r =>
        if distOKQ cutoff (vec3At g.edata "bond_vec" p.1) &&
            distOKQ cutoff (vec3At g.edata "bond_vec" r.1) then
          some (cosRep (vec3At g.edata "bond_vec" p.1) (vec3At g.edata "bond_vec" r.1))
        else none) =
      (K.filter (fun r => r.1 != p.1)).map (fun r =>
        cosRep (vec3At g.edata "bond_vec" p.1) (vec3At g.edata "bond_vec" r.1)) := by
    intro p hp
    have hPp : distOKQ cutoff (vec3At g.edata "bond_vec" p.1) = true :=
      (List.mem_filter.mp hp).2
    have hfm : ∀ (L : List (ℕ × ℕ)),
        L.filterMap (fun r =>
          if distOKQ cutoff (vec3At g.edata "bond_vec" p.1) &&
              distOKQ cutoff (vec3At g.edata "bond_vec" r.1) then
            some (cosRep (vec3At g.edata "bond_vec" p.1)
              (vec3At g.edata "bond_vec" r.1))
          else none) =
        (L.filter (fun r => distOKQ cutoff (vec3At g.edata "bond_vec" r.1))).map
          (fun r => cosRep (vec3At g.edata "bond_vec" p.1)
            (vec3At g.edata "bond_vec" r.1)) := by
      intro L
      rw [← filterMap_ite_eq_filter_map L
        (fun r => distOKQ cutoff (vec3At g.edata "bond_vec" r.1))
        (fun r => cosRep (vec3At g.edata "bond_vec" p.1)
          (vec3At g.edata "bond_vec" r.1))]
      apply List.filterMap_congr
      intro r _
      rw [hPp, Bool.true_and]
    rw [hfm]
    congr 1
    simp only [hK, hB, List.filter_filter]
    exact List.filter_congr (fun a _ => by
      simp [Bool.and_comm, Bool.and_left_comm, Bool.and_assoc])
  rw [flatMap_congr_mem hinner]
  -- project the block records to their original edge indices
  have hproj : K.flatMap (fun p =>
      (K.filter (fun r => r.1 != p.1)).map (fun r =>
        cosRep (vec3At g.edata "bond_vec" p.1) (vec3At g.edata "bond_vec" r.1))) =
      (K.map (fun r => r.1)).flatMap (fun i =>
        ((K.map (fun r => r.1)).filter (fun j => j != i)).map (fun j =>
          cosRep (vec3At g.edata "bond_vec" i) (vec3At g.edata "bond_vec" j))) :=
    pairs_projection K (fun r => r.1) (fun j i => j != i)
      (fun i j => cosRep (vec3At g.edata "bond_vec" i) (vec3At g.edata "bond_vec" j))
  rw [hproj]
  -- identify the projected index list with atomIds
  have hfst : R.map (fun r : ℕ × ℕ => r.1) = List.range g.edges.length := by
    rw [hR, withIdx_map_fst, ← List.range_eq_range']
    rw [hsrcs, List.length_map]
  have hcongr : ∀ r ∈ R, (distOKQ cutoff (vec3At g.edata "bond_vec" r.1) &&
      (r.2 == t)) = (fun i => keepId g cutoff i && (srcAtId g i == t)) r.1 := by
    intro r hr
    obtain ⟨h1, h2⟩ := mem_withIdx_zero 0 hr
    have hlen : r.1 < g.edges.length := by
      have hsl : srcs.length = g.edges.length := by rw [hsrcs, List.length_map]
      rw [← hsl]
      exact h1
    have hsrc : r.2 = srcAtId g r.1 := by
      rw [h2, hsrcs]
      rw [getD_map_of_lt (fun e => e.1) 0 (0, 0) g.edges r.1 hlen]
      rfl
    rw [hsrc, hkeep r.1 hlen]
  have hKmap : K.map (fun r : ℕ × ℕ => r.1) = atomIds g cutoff t := by
    have h1 : K = R.filter (fun r =>
        (fun i => keepId g cutoff i && (srcAtId g i == t)) r.1) := by
      rw [hK, hB, List.filter_filter]
      exact List.filter_congr hcongr
    rw [h1, filter_map_comp R (fun r => r.1)
      (fun i => keepId g cutoff i && (srcAtId g i == t)), hfst]
    unfold atomIds retained
    rw [List.filter_filter]
    apply List.filter_congr
    intro i _
    rw [Bool.and_comm]
  rw [hKmap]
  rfl

/-! ### The undirected line-graph cosines in canonical form -/

theorem lgCosReps_lineGraphOf (g : MGraph) (cutoff : ℚ) (bvl : List AttrVal)
    (hbv : getAttr g.edata "bond_vec" = some bvl) :
    lgCosReps (lineGraphOf g cutoff) = canonCos g cutoff := by
  have hpv : ∀ p : ℕ, p < (retained g cutoff).length →
      vec3At (prunedGraph g cutoff).edata "bond_vec" p =
        bvecAt g ((retained g cutoff).getD p 0) :=
    fun p hp => prunedVec_eq g cutoff bvl hbv p hp
  unfold lgCosReps canonCos
  rw [show (lineGraphOf g cutoff).edges =
    (List.range g.numNodes).flatMap
      (atomPairs (withIdx 0 (prunedGraph g cutoff).edges)) from rfl]
  rw [show (lineGraphOf g cutoff).ndata = (prunedGraph g cutoff).edata from rfl]
  rw [List.map_flatMap]
  apply flatMap_congr_mem
  intro atom _
  -- step 1: push the value map into the pair enumeration
  unfold atomPairs
  rw [List.map_flatMap]
  have hstep1 : ∀ (inc : List (ℕ × (ℕ × ℕ))),
      (inc.flatMap (fun a => ((inc.filter (fun b => b.1 != a.1)).map
          (fun b => (a.1, b.1))).map (fun e =>
          clipRep (cosRep (vec3At (prunedGraph g cutoff).edata "bond_vec" e.1)
            (vec3At (prunedGraph g cutoff).edata "bond_vec" e.2))))) =
      inc.flatMap (fun a => (inc.filter (fun b => b.1 != a.1)).map (fun b =>
          clipRep (cosRep (vec3At (prunedGraph g cutoff).edata "bond_vec" a.1)
            (vec3At (prunedGraph g cutoff).edata "bond_vec" b.1)))) := by
    intro inc
    apply flatMap_congr_mem
    intro a _
    rw [List.map_map]
    rfl
  rw [hstep1]
  -- step 2: express the pruned-edge records over the retained original indices
  have hpg : (prunedGraph g cutoff).edges =
      (retained g cutoff).map (fun i => g.edges.getD i (0, 0)) := rfl
  rw [hpg, withIdx_of_map]
  set W : List (ℕ × ℕ) := (withIdx 0 (retained g cutoff)).filter
    (fun r => (g.edges.getD r.2 (0, 0)).1 == atom) with hW
  have hfilt : ((withIdx 0 (retained g cutoff)).map
        (fun r => (r.1, g.edges.getD r.2 (0, 0)))).filter
        (fun pe => pe.2.1 == atom) =
      W.map (fun r => (r.1, g.edges.getD r.2 (0, 0))) := by
    rw [hW]
    exact List.filter_map (fun r => (r.1, g.edges.getD r.2 (0, 0)))
      (withIdx 0 (retained g cutoff))
  rw [hfilt]
  -- step 3: eliminate the record constructor
  have hstep3 :
      (W.map (fun r => (r.1, g.edges.getD r.2 (0, 0)))).flatMap (fun a =>
        ((W.map (fun r => (r.1, g.edges.getD r.2 (0, 0)))).filter
            (fun b => b.1 != a.1)).map (fun b =>
          clipRep (cosRep (vec3At (prunedGraph g cutoff).edata "bond_vec" a.1)
            (vec3At (prunedGraph g cutoff).edata "bond_vec" b.1)))) =
      W.flatMap (fun a => (W.filter (fun b => b.1 != a.1)).map (fun b =>
        clipRep (cosRep (vec3At (prunedGraph g cutoff).edata "bond_vec" a.1)
          (vec3At (prunedGraph g cutoff).edata "bond_vec" b.1)))) := by
    rw [List.flatMap_map]
    apply flatMap_congr_mem
    intro a _
    have h1 : (W.map (fun r => (r.1, g.edges.getD r.2 (0, 0)))).filter
        (fun b => b.1 != a.1) =
        (W.filter (fun b => b.1 != a.1)).map
          (fun r => (r.1, g.edges.getD r.2 (0, 0))) :=
      List.filter_map _ W
    rw [h1, List.map_map]
    rfl
  rw [hstep3]
  -- facts about W
  have hWsub : List.Sublist W (withIdx 0 (retained g cutoff)) := List.filter_sublist _
  have hfstnd : (W.map (fun r : ℕ × ℕ => r.1)).Nodup :=
    (withIdx_fst_nodup 0 (retained g cutoff)).sublist (hWsub.map _)
  have hsndnd : (W.map (fun r : ℕ × ℕ => r.2)).Nodup := by
    have h1 : List.Sublist (W.map (fun r : ℕ × ℕ => r.2))
        ((withIdx 0 (retained g cutoff)).map (fun r : ℕ × ℕ => r.2)) := hWsub.map _
    rw [withIdx_map_snd] at h1
    exact (retained_nodup g cutoff).sublist h1
  have hmemW : ∀ r : ℕ × ℕ, r ∈ W → r.1 < (retained g cutoff).length ∧
      r.2 = (retained g cutoff).getD r.1 0 := by
    intro r hr
    exact mem_withIdx_zero 0 (List.mem_of_mem_filter hr)
  have hpvW : ∀ r : ℕ × ℕ, r ∈ W →
      vec3At (prunedGraph g cutoff).edata "bond_vec" r.1 = bvecAt g r.2 := by
    intro r hr
    obtain ⟨h1, h2⟩ := hmemW r hr
    rw [hpv r.1 h1, ← h2]
  -- step 4: switch the inequality key from pruned position to original index,
  -- rewrite the vectors, and drop the clip
  have hstep4 : W.flatMap (fun a => (W.filter (fun b => b.1 != a.1)).map (fun b =>
      clipRep (cosRep (vec3At (prunedGraph g cutoff).edata "bond_vec" a.1)
        (vec3At (prunedGraph g cutoff).edata "bond_vec" b.1)))) =
      W.flatMap (fun a => (W.filter (fun b => b.2 != a.2)).map (fun b =>
        cosRep (bvecAt g a.2) (bvecAt g b.2))) := by
    apply flatMap_congr_mem
    intro a ha
    apply map_filter_mem_congr
    · intro b hb
      have hiff : b.1 = a.1 ↔ b.2 = a.2 := by
        constructor
        · intro h
          rw [nodup_map_mem_inj hfstnd b hb a ha h]
        · intro h
          rw [nodup_map_mem_inj hsndnd b hb a ha h]
      rcases h1 : (b.1 == a.1) with _ | _
      · have h2 : (b.2 == a.2) = false := by
          apply beq_eq_false_iff_ne.mpr
          intro he
          have h3 : (b.1 == a.1) = true := beq_iff_eq.mpr (hiff.mpr he)
          rw [h1] at h3
          exact absurd h3 (by simp)
        simp [bne, h1, h2]
      · have h2 : (b.2 == a.2) = true := beq_iff_eq.mpr (hiff.mp (by simpa using h1))
        simp [bne, h1, h2]
    · intro b hb
      rw [hpvW a ha, hpvW b hb, clipRep_cosRep]
  rw [hstep4]
  -- step 5: project the records to the original edge indices
  have hstep5 : W.flatMap (fun a => (W.filter (fun b => b.2 != a.2)).map (fun b =>
      cosRep (bvecAt g a.2) (bvecAt g b.2))) =
      (W.map (fun r : ℕ × ℕ => r.2)).flatMap (fun i =>
        ((W.map (fun r : ℕ × ℕ => r.2)).filter (fun j => j != i)).map (fun j =>
          cosRep (bvecAt g i) (bvecAt g j))) :=
    pairs_projection W (fun r => r.2) (fun x y => x != y)
      (fun x y => cosRep (bvecAt g x) (bvecAt g y))
  rw [hstep5]
  -- step 6: the projected index list is atomIds
  have hstep6 : W.map (fun r : ℕ × ℕ => r.2) = atomIds g cutoff atom := by
    rw [hW]
    exact withIdx_filter_snd (fun i => (g.edges.getD i (0, 0)).1 == atom) 0
      (retained g cutoff)
  rw [hstep6]

/-! ### Unpacking the well-formedness hypotheses -/

theorem wfInput_parts {g : MGraph} (h : wfInput g = true) :
    wfStructure g = true ∧ wfBonds g = true ∧ distMatchesVec g = true := by
  unfold wfInput at h
  have h1 := (Bool.and_eq_true _ _).mp h
  have h2 := (Bool.and_eq_true _ _).mp h1.1
  exact ⟨h2.1, h2.2, h1.2⟩

theorem wfBonds_bond_vec {g : MGraph} (h : wfBonds g = true) :
    ∃ l, getAttr g.edata "bond_vec" = some l := by
  unfold wfBonds attrIsV3List at h
  have h1 := (Bool.and_eq_true _ _).mp h
  rcases hv : getAttr g.edata "bond_vec" with _ | l
  · rw [hv] at h1
    exact absurd h1.1 (by simp)
  · exact ⟨l, rfl⟩

theorem wfBonds_bond_dist {g : MGraph} (h : wfBonds g = true) :
    ∃ l, getAttr g.edata "bond_dist" = some l := by
  unfold wfBonds attrIsQList at h
  have h1 := (Bool.and_eq_true _ _).mp h
  rcases hv : getAttr g.edata "bond_dist" with _ | l
  · rw [hv] at h1
    exact absurd h1.2 (by simp)
  · exact ⟨l, rfl⟩

/-- C1: for every well-formed atomic graph (bond_vec and bond_dist populated and
consistent, edges grouped by source atom, endpoints in range) and every positive
angular cutoff, the cos_theta values produced by `create_line_graph` followed by
`compute_theta_and_phi` agree, as a multiset (i.e. up to sort order), with the
cosines produced by the brute-force triple-loop `_calculate_cos_loop` over all
ordered pairs of distinct bonds sharing a source atom with both bond distances
within the cutoff. -/
theorem claim1_line_graph_cos_equals_brute_force (g : MGraph) (cutoff : ℚ)
    (hwf : wfInput g = true) (hc : 0 < cutoff) :
    ∃ lg cs, create_line_graph g cutoff = some lg ∧
      getAttr (compute_theta_and_phi lg).edata "cos_theta" = some cs ∧
      ((cs.map AttrVal.real : List ℝ) : Multiset ℝ) =
        (((bruteCosList g cutoff).map repReal : List ℝ) : Multiset ℝ) := by
  obtain ⟨hst, hbo, hdm⟩ := wfInput_parts hwf
  obtain ⟨bvl, hbv⟩ := wfBonds_bond_vec hbo
  obtain ⟨bdl, hbd⟩ := wfBonds_bond_dist hbo
  refine ⟨lineGraphOf g cutoff, cosThetaVals (lineGraphOf g cutoff),
    create_line_graph_eq g cutoff bdl hbd hc, ?_, ?_⟩
  · rw [show (compute_theta_and_phi (lineGraphOf g cutoff)).edata =
      setAttr (setAttr (lineGraphOf g cutoff).edata "cos_theta"
        (cosThetaVals (lineGraphOf g cutoff))) "phi"
        ((lineGraphOf g cutoff).edges.map (fun _ => AttrVal.q 0)) from rfl]
    rw [getAttr_setAttr_ne _ _ _ _ (by decide)]
    exact getAttr_setAttr_self _ _ _
  · have h1 : (cosThetaVals (lineGraphOf g cutoff)).map AttrVal.real =
        (lgCosReps (lineGraphOf g cutoff)).map repReal := by
      unfold cosThetaVals
      rw [List.map_map]
      rfl
    rw [h1, lgCosReps_lineGraphOf g cutoff bvl hbv,
      bruteCosList_eq_canonCos g cutoff hst hdm hc]

/-- Witness for C1: the hypotheses hold and the theorem applies at the concrete
3-atom molecular graph `gMol` with cutoff 5. -/
theorem claim1_witness :
    wfInput gMol = true ∧ (0 : ℚ) < 5 ∧
      (∃ lg cs, create_line_graph gMol 5 = some lg ∧
        getAttr (compute_theta_and_phi lg).edata "cos_theta" = some cs ∧
        ((cs.map AttrVal.real : List ℝ) : Multiset ℝ) =
          (((bruteCosList gMol 5).map repReal : List ℝ) : Multiset ℝ)) :=
  ⟨by decide!, by norm_num,
    claim1_line_graph_cos_equals_brute_force gMol 5 (by decide!) (by norm_num)⟩

/-! ### Further index bookkeeping lemmas -/

theorem withIdx_length {α : Type*} : ∀ (n : ℕ) (l : List α),
    (withIdx n l).length = l.length
  | _, [] => rfl
  | n, x :: xs => by simp [withIdx, withIdx_length (n + 1) xs]

theorem withIdx_getD {α : Type*} (d : α) : ∀ (n : ℕ) (l : List α) (e : ℕ),
    e < l.length → (withIdx n l).getD e (0, d) = (n + e, l.getD e d)
  | _, [], e, he => absurd he (by simp)
  | n, x :: xs, 0, _ => by simp [withIdx]
  | n, x :: xs, e + 1, he => by
    have := withIdx_getD d (n + 1) xs e (by simpa using Nat.lt_of_succ_lt_succ he)
    simp only [withIdx, List.getD_cons_succ]
    rw [this]
    congr 1
    omega

theorem range_filter_map_fst {α β : Type*} (l : List α) (p : ℕ → Bool) (F : ℕ → β) :
    ((List.range l.length).filter p).map F =
      ((withIdx 0 l).filter (fun pe => p pe.1)).map (fun pe => F pe.1) := by
  have h1 : List.range l.length = (withIdx 0 l).map (fun r => r.1) := by
    rw [withIdx_map_fst, List.range_eq_range']
  rw [h1, ← filter_map_comp (withIdx 0 l) (fun r => r.1) p, List.map_map]
  rfl

theorem range_filter_map_getD {α : Type*} (l : List α) (p : ℕ → Bool) (d : α) :
    ((List.range l.length).filter p).map (fun i => l.getD i d) =
      ((withIdx 0 l).filter (fun pe => p pe.1)).map (fun pe => pe.2) := by
  rw [range_filter_map_fst l p (fun i => l.getD i d)]
  apply List.map_congr_left
  intro pe hpe
  have h1 := mem_withIdx_zero d (List.mem_of_mem_filter hpe)
  rw [h1.2]

theorem vec3_add_default (v : Vec3) : Vec3.add v default = v := by
  show Vec3.add v ⟨0, 0, 0⟩ = v
  unfold Vec3.add
  cases v
  simp

/-! ### C2: the geometry kernel -/

/-- C2: for every graph with a position attribute and every edge index `e`,
`compute_pair_vector_and_distance` returns, in input edge order, the bond vector
`pos[dst] + image_offset·lattice − pos[src]` and a bond distance equal to the
Euclidean norm of that bond vector; when the graph has no lattice the offset term
vanishes and the vector is `pos[dst] − pos[src]`. -/
theorem claim2_pair_vector_and_distance (g : MGraph) (e : ℕ)
    (he : e < g.edges.length) :
    (compute_pair_vector_and_distance g).1.getD e default =
        Vec3.sub (Vec3.add (posAt g (g.edges.getD e (0, 0)).2)
          (latticeShift g.lattice (offAt g e))) (posAt g (g.edges.getD e (0, 0)).1) ∧
    (compute_pair_vector_and_distance g).2.getD e 0 =
        ‖toEuc ((compute_pair_vector_and_distance g).1.getD e default)‖ ∧
    (g.lattice = none →
      (compute_pair_vector_and_distance g).1.getD e default =
        Vec3.sub (posAt g (g.edges.getD e (0, 0)).2)
          (posAt g (g.edges.getD e (0, 0)).1)) := by
  have hlen : (withIdx 0 g.edges).length = g.edges.length := withIdx_length 0 g.edges
  have hvec : (compute_pair_vector_and_distance g).1.getD e default =
      Vec3.sub (Vec3.add (posAt g (g.edges.getD e (0, 0)).2)
        (latticeShift g.lattice (offAt g e))) (posAt g (g.edges.getD e (0, 0)).1) := by
    show (bondVectors g).getD e default = _
    unfold bondVectors
    rw [getD_map_of_lt _ _ (0, (0, 0)) _ e (by rw [hlen]; exact he)]
    rw [withIdx_getD (0, 0) 0 g.edges e he]
    simp [Nat.zero_add]
  refine ⟨hvec, ?_, ?_⟩
  · show (bondDistances g).getD e 0 = _
    unfold bondDistances
    have hlen2 : (bondVectors g).length = g.edges.length := by
      unfold bondVectors
      rw [List.length_map, hlen]
    rw [getD_map_of_lt _ _ default _ e (by rw [hlen2]; exact he)]
    rw [norm_toEuc]
    rfl
  · intro hnone
    rw [hvec, hnone]
    show Vec3.sub (Vec3.add _ (latticeShift none (offAt g e))) _ = _
    rw [show latticeShift none (offAt g e) = default from rfl, vec3_add_default]

/-- Witness for C2: the theorem applies at the 2-atom periodic graph `gGeo`,
edge 1. -/
theorem claim2_witness :
    1 < gGeo.edges.length ∧
      ((compute_pair_vector_and_distance gGeo).1.getD 1 default =
          Vec3.sub (Vec3.add (posAt gGeo (gGeo.edges.getD 1 (0, 0)).2)
            (latticeShift gGeo.lattice (offAt gGeo 1)))
            (posAt gGeo (gGeo.edges.getD 1 (0, 0)).1) ∧
        (compute_pair_vector_and_distance gGeo).2.getD 1 0 =
          ‖toEuc ((compute_pair_vector_and_distance gGeo).1.getD 1 default)‖ ∧
        (gGeo.lattice = none →
          (compute_pair_vector_and_distance gGeo).1.getD 1 default =
            Vec3.sub (posAt gGeo (gGeo.edges.getD 1 (0, 0)).2)
              (posAt gGeo (gGeo.edges.getD 1 (0, 0)).1))) :=
  ⟨by decide, claim2_pair_vector_and_distance gGeo 1 (by decide)⟩

/-! ### C3: edge pruning polarity -/

/-- C3 counterexample: at the concrete graph `gPrune3` with attribute "d" taking
values 2 and 5 and condition `x > 3`, the claim as stated predicts that the edges
on which the condition is TRUE are retained, i.e. edge 1 = (1,0) with
edge_ids = [1]; the code retains the condition-FALSE edges instead:
the pruned graph has edges [(0,1)] and edge_ids = [0]. -/
theorem claim3_counterexample :
    (prune_edges_by_features gPrune3 "d" cond3 false false).map (fun ng => ng.edges) =
        some [(0, 1)] ∧
      (prune_edges_by_features gPrune3 "d" cond3 false false).map
          (fun ng => getAttr ng.edata "edge_ids") = some (some [AttrVal.n 0]) ∧
      cond3 (AttrVal.q 5) = true ∧ cond3 (AttrVal.q 2) = false ∧
      gPrune3.edges.getD 1 (0, 0) = (1, 0) ∧
      ([(0, 1)] : List (ℕ × ℕ)) ≠ [(1, 0)] ∧
      (some [AttrVal.n 0] : Option (List AttrVal)) ≠ some [AttrVal.n 1] := by
  decide!

/-- C3 (amended): `prune_edges_by_features` returns a new graph whose edges are
exactly those source edges on which the condition is FALSE (the condition selects
the edges to remove), in preserved relative order, and attaches `edge_ids`, the
original indices of the retained edges in retained order. -/
theorem claim3_prune_retains_condition_false (g : MGraph) (name : String)
    (cond : AttrVal → Bool) (kn ke : Bool) (vals : List AttrVal)
    (h : getAttr g.edata name = some vals) :
    ∃ ng, prune_edges_by_features g name cond kn ke = some ng ∧
      ng.edges = ((withIdx 0 g.edges).filter
          (fun pe => !cond (vals.getD pe.1 default))).map (fun pe => pe.2) ∧
      getAttr ng.edata "edge_ids" = some (((withIdx 0 g.edges).filter
          (fun pe => !cond (vals.getD pe.1 default))).map (fun pe => AttrVal.n pe.1)) := by
  unfold prune_edges_by_features
  rw [h]
  refine ⟨_, rfl, ?_, ?_⟩
  · show (keptIds vals cond g.edges.length).map (fun i => g.edges.getD i (0, 0)) = _
    unfold keptIds
    exact range_filter_map_getD g.edges (fun i => !cond (vals.getD i default)) (0, 0)
  · rw [getAttr_setAttr_self]
    unfold keptIds
    rw [range_filter_map_fst g.edges (fun i => !cond (vals.getD i default)) AttrVal.n]

/-- Witness for C3 (amended): the theorem applies at `gPrune3` with condition
`x > 3`. -/
theorem claim3_witness :
    getAttr gPrune3.edata "d" = some [AttrVal.q 2, AttrVal.q 5] ∧
      (∃ ng, prune_edges_by_features gPrune3 "d" cond3 true true = some ng ∧
        ng.edges = ((withIdx 0 gPrune3.edges).filter
            (fun pe => !cond3 (([AttrVal.q 2, AttrVal.q 5]).getD pe.1 default))).map
            (fun pe => pe.2) ∧
        getAttr ng.edata "edge_ids" = some (((withIdx 0 gPrune3.edges).filter
            (fun pe => !cond3 (([AttrVal.q 2, AttrVal.q 5]).getD pe.1 default))).map
            (fun pe => AttrVal.n pe.1))) :=
  ⟨by decide!, claim3_prune_retains_condition_false gPrune3 "d" cond3 true true
    [AttrVal.q 2, AttrVal.q 5] (by decide!)⟩

/-! ### C8: frame conditions of pruning -/

/-- C8: with `keep_edata = true` every retained edge of the pruned graph carries
every source edge attribute (other than the `edge_ids` bookkeeping) with the
source value at the corresponding original edge index, and with
`keep_ndata = true` the node store is copied unchanged (same keys, same values,
by node-index correspondence). -/
theorem claim8_prune_frame (g : MGraph) (name : String) (cond : AttrVal → Bool)
    (vals : List AttrVal) (h : getAttr g.edata name = some vals) :
    ∃ ng, prune_edges_by_features g name cond true true = some ng ∧
      ng.ndata = g.ndata ∧
      (∀ key : String, key ≠ "edge_ids" →
        getAttr ng.edata key = (getAttr g.edata key).map
          (fun vs => (keptIds vals cond g.edges.length).map (fun i => vs.getD i default))) := by
  unfold prune_edges_by_features
  rw [h]
  refine ⟨_, rfl, rfl, ?_⟩
  intro key hkey
  show getAttr (setAttr (g.edata.map (fun p =>
    (p.1, (keptIds vals cond g.edges.length).map (fun i => p.2.getD i default))))
    "edge_ids" ((keptIds vals cond g.edges.length).map AttrVal.n)) key = _
  rw [getAttr_setAttr_ne _ _ _ _ hkey]
  exact getAttr_map_val g.edata
    (fun vs => (keptIds vals cond g.edges.length).map (fun i => vs.getD i default)) key

/-- Witness for C8: the theorem applies at `gMol` pruning on "bond_dist" with
condition `x > 3`. -/
theorem claim8_witness :
    getAttr gMol.edata "bond_dist" =
        some [AttrVal.q 5, AttrVal.q 1, AttrVal.q 5, AttrVal.q 1] ∧
      (∃ ng, prune_edges_by_features gMol "bond_dist" cond3 true true = some ng ∧
        ng.ndata = gMol.ndata ∧
        (∀ key : String, key ≠ "edge_ids" →
          getAttr ng.edata key = (getAttr gMol.edata key).map
            (fun vs => (keptIds [AttrVal.q 5, AttrVal.q 1, AttrVal.q 5, AttrVal.q 1]
              cond3 gMol.edges.length).map (fun i => vs.getD i default)))) :=
  ⟨by decide!, claim8_prune_frame gMol "bond_dist" cond3
    [AttrVal.q 5, AttrVal.q 1, AttrVal.q 5, AttrVal.q 1] (by decide!)⟩

/-! ### C9: error handling of the builders and pruning -/

/-- C9: `create_line_graph` and `create_directed_line_graph` fail (return None)
whenever the cutoff is not strictly positive or the `bond_dist` edge attribute is
absent, and `prune_edges_by_features` fails whenever the named edge attribute is
absent; the embedding is a pure function, so no partial computation is performed
and the input graph is never modified. -/
theorem claim9_error_handling (g : MGraph) (cutoff : ℚ) (name : String)
    (cond : AttrVal → Bool) (kn ke : Bool) :
    ((cutoff ≤ 0 ∨ getAttr g.edata "bond_dist" = none) →
      create_line_graph g cutoff = none ∧
        create_directed_line_graph g cutoff = none) ∧
    (getAttr g.edata name = none →
      prune_edges_by_features g name cond kn ke = none) := by
  constructor
  · intro h
    have hprune : getAttr g.edata "bond_dist" = none →
        prune_edges_by_features g "bond_dist" (bondDistCond cutoff) true true = none := by
      intro hn
      unfold prune_edges_by_features
      rw [hn]
    constructor
    · unfold create_line_graph
      rcases h with h | h
      · rw [if_pos h]
      · by_cases hcut : cutoff ≤ 0
        · rw [if_pos hcut]
        · rw [if_neg hcut, hprune h]
    · unfold create_directed_line_graph
      rcases h with h | h
      · rw [if_pos h]
      · by_cases hcut : cutoff ≤ 0
        · rw [if_pos hcut]
        · rw [if_neg hcut, hprune h]
  · intro h
    unfold prune_edges_by_features
    rw [h]

/-- Witness for C9: the theorem applies at `gPrune3` (which lacks a `bond_dist`
attribute) with cutoff 1, and at the absent attribute name "pos". -/
theorem claim9_witness :
    ((1 : ℚ) ≤ 0 ∨ getAttr gPrune3.edata "bond_dist" = none) ∧
      (create_line_graph gPrune3 1 = none ∧
        create_directed_line_graph gPrune3 1 = none) ∧
      getAttr gPrune3.edata "pos" = none ∧
      prune_edges_by_features gPrune3 "pos" cond3 false false = none :=
  ⟨Or.inr (by decide!),
    (claim9_error_handling gPrune3 1 "pos" cond3 false false).1 (Or.inr (by decide!)),
    by decide!,
    (claim9_error_handling gPrune3 1 "pos" cond3 false false).2 (by decide!)⟩

/-! ### C4 and C5: the angular feature engines -/

theorem clipRep_sq_nonneg (r : ℤ × ℚ) (h : 0 ≤ r.2) : 0 ≤ (clipRep r).2 := by
  unfold clipRep
  dsimp only
  split
  · norm_num
  · exact h

/-- C4: on every line graph, `compute_theta_and_phi` writes per-edge
`cos_theta = dot(v_src, v_dst)/(|v_src|·|v_dst|)` clipped to `[-1, 1]` (the clip
shown here as an explicit clamp; nonzero bond vectors assumed so that the
quotient is defined), writes `phi = 0` on every edge, and leaves the `theta`
attribute exactly as it was (in particular it sets no theta). -/
theorem claim4_theta_and_phi_values (lg : MGraph) :
    getAttr (compute_theta_and_phi lg).edata "cos_theta" = some (cosThetaVals lg) ∧
    (cosThetaVals lg).length = lg.edges.length ∧
    (∀ e : ℕ, e < lg.edges.length →
      Vec3.normSq (vec3At lg.ndata "bond_vec" (lg.edges.getD e (0, 0)).1) ≠ 0 →
      Vec3.normSq (vec3At lg.ndata "bond_vec" (lg.edges.getD e (0, 0)).2) ≠ 0 →
      ((cosThetaVals lg).getD e default).real =
        max (-1) (min 1
          (((Vec3.dot (vec3At lg.ndata "bond_vec" (lg.edges.getD e (0, 0)).1)
              (vec3At lg.ndata "bond_vec" (lg.edges.getD e (0, 0)).2) : ℚ) : ℝ) /
            (‖toEuc (vec3At lg.ndata "bond_vec" (lg.edges.getD e (0, 0)).1)‖ *
             ‖toEuc (vec3At lg.ndata "bond_vec" (lg.edges.getD e (0, 0)).2)‖)))) ∧
    getAttr (compute_theta_and_phi lg).edata "phi" =
      some (List.replicate lg.edges.length (AttrVal.q 0)) ∧
    getAttr (compute_theta_and_phi lg).edata "theta" = getAttr lg.edata "theta" := by
  refine ⟨?_, ?_, ?_, ?_, ?_⟩
  · unfold compute_theta_and_phi
    rw [getAttr_setAttr_ne _ _ _ _ (by decide), getAttr_setAttr_self]
  · unfold cosThetaVals lgCosReps
    simp
  · intro e he hu hv
    set u := vec3At lg.ndata "bond_vec" (lg.edges.getD e (0, 0)).1 with hud
    set v := vec3At lg.ndata "bond_vec" (lg.edges.getD e (0, 0)).2 with hvd
    have h1 : (cosThetaVals lg).getD e default =
        AttrVal.c (clipRep (cosRep u v)).1 (clipRep (cosRep u v)).2 := by
      unfold cosThetaVals lgCosReps
      rw [List.map_map]
      exact getD_map_of_lt _ default (0, 0) lg.edges e he
    rw [h1]
    have hrep : repReal (cosRep u v) =
        ((Vec3.dot u v : ℚ) : ℝ) / (‖toEuc u‖ * ‖toEuc v‖) := by
      rw [repReal_cosRep u v hu hv, norm_toEuc, norm_toEuc]
    have hb : |((Vec3.dot u v : ℚ) : ℝ) / (‖toEuc u‖ * ‖toEuc v‖)| ≤ 1 := by
      rw [← hrep]
      exact abs_repReal_le_one (cosRep u v) (sgnQ_cast_abs_le_one _) (cosRep_sq_le_one u v)
    have habs := abs_le.mp hb
    have hval : (AttrVal.c (clipRep (cosRep u v)).1 (clipRep (cosRep u v)).2).real =
        ((Vec3.dot u v : ℚ) : ℝ) / (‖toEuc u‖ * ‖toEuc v‖) := by
      show repReal ((clipRep (cosRep u v)).1, (clipRep (cosRep u v)).2) = _
      rw [show ((clipRep (cosRep u v)).1, (clipRep (cosRep u v)).2) =
            clipRep (cosRep u v) from rfl,
        clipRep_cosRep, hrep]
    rw [hval, min_eq_right habs.2, max_eq_right habs.1]
  · unfold compute_theta_and_phi
    rw [getAttr_setAttr_self]
    congr 1
    simp [List.map_const']
  · unfold compute_theta_and_phi
    rw [getAttr_setAttr_ne _ _ _ _ (by decide), getAttr_setAttr_ne _ _ _ _ (by decide)]

theorem claim4_witness :
    (0 < lgPlain.edges.length ∧
     Vec3.normSq (vec3At lgPlain.ndata "bond_vec" (lgPlain.edges.getD 0 (0, 0)).1) ≠ 0 ∧
     Vec3.normSq (vec3At lgPlain.ndata "bond_vec" (lgPlain.edges.getD 0 (0, 0)).2) ≠ 0) ∧
    ((cosThetaVals lgPlain).getD 0 default).real =
      max (-1) (min 1
        (((Vec3.dot (vec3At lgPlain.ndata "bond_vec" (lgPlain.edges.getD 0 (0, 0)).1)
            (vec3At lgPlain.ndata "bond_vec" (lgPlain.edges.getD 0 (0, 0)).2) : ℚ) : ℝ) /
          (‖toEuc (vec3At lgPlain.ndata "bond_vec" (lgPlain.edges.getD 0 (0, 0)).1)‖ *
           ‖toEuc (vec3At lgPlain.ndata "bond_vec" (lgPlain.edges.getD 0 (0, 0)).2)‖))) :=
  ⟨⟨by decide!, by decide!, by decide!⟩,
   (claim4_theta_and_phi_values lgPlain).2.2.1 0 (by decide!) (by decide!) (by decide!)⟩

/-- C5: `compute_theta` with `cosine = true` writes the same cos_theta attribute
as `compute_theta_and_phi` and leaves theta untouched; with `cosine = false` it
additionally writes a theta attribute whose per-edge real value is
`arccos((1 − 1e-7) · cos_theta)`; the directed flag never changes the result. -/
theorem claim5_compute_theta_refines (lg : MGraph) (d : Bool) :
    getAttr (compute_theta lg true d).edata "cos_theta" =
      getAttr (compute_theta_and_phi lg).edata "cos_theta" ∧
    getAttr (compute_theta lg true d).edata "theta" = getAttr lg.edata "theta" ∧
    getAttr (compute_theta lg false d).edata "cos_theta" =
      getAttr (compute_theta_and_phi lg).edata "cos_theta" ∧
    getAttr (compute_theta lg false d).edata "theta" = some (thetaVals lg) ∧
    (thetaVals lg).length = lg.edges.length ∧
    (∀ e : ℕ, e < lg.edges.length →
      ((thetaVals lg).getD e default).real =
        Real.arccos (((epsFactor : ℚ) : ℝ) * ((cosThetaVals lg).getD e default).real)) ∧
    (∀ c : Bool, compute_theta lg c true = compute_theta lg c false) := by
  refine ⟨?_, ?_, ?_, ?_, ?_, ?_, fun _ => rfl⟩
  · show getAttr (setAttr lg.edata "cos_theta" (cosThetaVals lg)) "cos_theta" = _
    unfold compute_theta_and_phi
    rw [getAttr_setAttr_self, getAttr_setAttr_ne _ _ _ _ (by decide),
      getAttr_setAttr_self]
  · show getAttr (setAttr lg.edata "cos_theta" (cosThetaVals lg)) "theta" = _
    rw [getAttr_setAttr_ne _ _ _ _ (by decide)]
  · show getAttr (setAttr (setAttr lg.edata "cos_theta" (cosThetaVals lg)) "theta"
      (thetaVals lg)) "cos_theta" = _
    unfold compute_theta_and_phi
    rw [getAttr_setAttr_ne _ _ _ _ (by decide), getAttr_setAttr_self,
      getAttr_setAttr_ne _ _ _ _ (by decide), getAttr_setAttr_self]
  · show getAttr (setAttr (setAttr lg.edata "cos_theta" (cosThetaVals lg)) "theta"
      (thetaVals lg)) "theta" = _
    rw [getAttr_setAttr_self]
  · unfold thetaVals lgCosReps
    simp
  · intro e he
    set u := vec3At lg.ndata "bond_vec" (lg.edges.getD e (0, 0)).1 with hud
    set v := vec3At lg.ndata "bond_vec" (lg.edges.getD e (0, 0)).2 with hvd
    have h1 : (thetaVals lg).getD e default =
        AttrVal.ac (epsScale (clipRep (cosRep u v))).1
          (epsScale (clipRep (cosRep u v))).2 := by
      unfold thetaVals lgCosReps
      rw [List.map_map]
      exact getD_map_of_lt _ default (0, 0) lg.edges e he
    have h2 : (cosThetaVals lg).getD e default =
        AttrVal.c (clipRep (cosRep u v)).1 (clipRep (cosRep u v)).2 := by
      unfold cosThetaVals lgCosReps
      rw [List.map_map]
      exact getD_map_of_lt _ default (0, 0) lg.edges e he
    rw [h1, h2]
    show Real.arccos (repReal (epsScale (clipRep (cosRep u v)))) =
      Real.arccos (((epsFactor : ℚ) : ℝ) * repReal (clipRep (cosRep u v)))
    rw [repReal_epsScale _ (clipRep_sq_nonneg _ (cosRep_sq_nonneg u v))]

theorem claim5_witness :
    0 < lgPlain.edges.length ∧
    ((thetaVals lgPlain).getD 0 default).real =
      Real.arccos (((epsFactor : ℚ) : ℝ) *
        ((cosThetaVals lgPlain).getD 0 default).real) :=
  ⟨by decide!, (claim5_compute_theta_refines lgPlain true).2.2.2.2.2.1 0 (by decide!)⟩

/-! ### C7: shape of the undirected line-graph edges -/

theorem nodup_getD_inj {l : List ℕ} (h : l.Nodup) {i j : ℕ}
    (hi : i < l.length) (hj : j < l.length) (he : l.getD i 0 = l.getD j 0) :
    i = j := by
  rw [List.getD_eq_getElem l 0 hi, List.getD_eq_getElem l 0 hj] at he
  exact (List.Nodup.getElem_inj_iff h).mp he

/-- C7 counterexample: in the 2-atom graph `gPar` with two parallel bonds 0→1
(distinct periodic images, both within cutoff 2), `create_line_graph` produces
the line-graph edge (0, 1) joining pruned bonds 0 and 1, whose original
atomic-graph edges are edge 0 = (0,1) and edge 1 = (0,1): they share BOTH atoms,
not exactly one, refuting the claim's "share exactly one atom". -/
theorem claim7_counterexample :
    create_line_graph gPar 2 = some (lineGraphOf gPar 2) ∧
    (0, 1) ∈ (lineGraphOf gPar 2).edges ∧
    retained gPar 2 = [0, 1] ∧
    gPar.edges.getD 0 (0, 0) = (0, 1) ∧ gPar.edges.getD 1 (0, 0) = (0, 1) ∧
    (sharedAtoms (gPar.edges.getD 0 (0, 0)) (gPar.edges.getD 1 (0, 0))).card = 2 := by
  refine ⟨?_, ?_, ?_, ?_, ?_, ?_⟩ <;> decide!

/-- C7 (amended): for every atomic graph with a populated `bond_dist` attribute
and positive cutoff, every edge `p` of the line graph returned by
`create_line_graph` joins two DISTINCT retained bonds (distinct line-graph nodes
mapping to distinct original edge indices), both of whose bond distances are
within the cutoff, and the two original edges share a common SOURCE atom (they
need not share exactly one atom: parallel periodic-image bonds share both
endpoints); in particular no line-graph edge pairs a bond with itself. -/
theorem claim7_line_graph_pairs (g : MGraph) (cutoff : ℚ) (vals : List AttrVal)
    (hd : getAttr g.edata "bond_dist" = some vals) (hc : 0 < cutoff) :
    ∀ lg : MGraph, create_line_graph g cutoff = some lg →
      ∀ p ∈ lg.edges,
        p.1 ≠ p.2 ∧
        p.1 < (retained g cutoff).length ∧
        p.2 < (retained g cutoff).length ∧
        (retained g cutoff).getD p.1 0 ≠ (retained g cutoff).getD p.2 0 ∧
        srcAtId g ((retained g cutoff).getD p.1 0) =
          srcAtId g ((retained g cutoff).getD p.2 0) ∧
        bdistAt g ((retained g cutoff).getD p.1 0) ≤ cutoff ∧
        bdistAt g ((retained g cutoff).getD p.2 0) ≤ cutoff := by
  intro lg hlg p hp
  rw [create_line_graph_eq g cutoff vals hd hc] at hlg
  have hlg' : lineGraphOf g cutoff = lg := by
    injection hlg
  subst hlg'
  have hp' : p ∈ (List.range g.numNodes).flatMap
      (atomPairs (withIdx 0 (prunedGraph g cutoff).edges)) := hp
  rw [List.mem_flatMap] at hp'
  obtain ⟨atom, -, hpa⟩ := hp'
  simp only [atomPairs, List.mem_flatMap, List.mem_map, List.mem_filter] at hpa
  obtain ⟨a, ⟨haW, hasrc⟩, b, ⟨⟨hbW, hbsrc⟩, hbne⟩, hpeq⟩ := hpa
  subst hpeq
  have hlen : (prunedGraph g cutoff).edges.length = (retained g cutoff).length := by
    show ((retained g cutoff).map (fun i => g.edges.getD i (0, 0))).length = _
    rw [List.length_map]
  obtain ⟨ha1, ha2⟩ := mem_withIdx_zero (0, 0) haW
  obtain ⟨hb1, hb2⟩ := mem_withIdx_zero (0, 0) hbW
  have ha1' : a.1 < (retained g cutoff).length := hlen ▸ ha1
  have hb1' : b.1 < (retained g cutoff).length := hlen ▸ hb1
  have hEa : (prunedGraph g cutoff).edges.getD a.1 (0, 0) =
      g.edges.getD ((retained g cutoff).getD a.1 0) (0, 0) := by
    show ((retained g cutoff).map (fun i => g.edges.getD i (0, 0))).getD a.1 (0, 0) = _
    exact getD_map_of_lt _ (0, 0) 0 (retained g cutoff) a.1 ha1'
  have hEb : (prunedGraph g cutoff).edges.getD b.1 (0, 0) =
      g.edges.getD ((retained g cutoff).getD b.1 0) (0, 0) := by
    show ((retained g cutoff).map (fun i => g.edges.getD i (0, 0))).getD b.1 (0, 0) = _
    exact getD_map_of_lt _ (0, 0) 0 (retained g cutoff) b.1 hb1'
  have hasrc' : a.2.1 = atom := by simpa using hasrc
  have hbsrc' : b.2.1 = atom := by simpa using hbsrc
  have hne : b.1 ≠ a.1 := by simpa using hbne
  have hmema : (retained g cutoff).getD a.1 0 ∈ retained g cutoff := by
    rw [List.getD_eq_getElem _ 0 ha1']
    exact List.getElem_mem ha1'
  have hmemb : (retained g cutoff).getD b.1 0 ∈ retained g cutoff := by
    rw [List.getD_eq_getElem _ 0 hb1']
    exact List.getElem_mem hb1'
  have hka := ((mem_retained g cutoff _).mp hmema).2
  have hkb := ((mem_retained g cutoff _).mp hmemb).2
  refine ⟨fun h => hne (by simpa using h.symm), ha1', hb1', ?_, ?_, ?_, ?_⟩
  · intro h
    exact hne (nodup_getD_inj (retained_nodup g cutoff) hb1' ha1' h.symm) |>.elim
  · show (g.edges.getD ((retained g cutoff).getD a.1 0) (0, 0)).1 =
      (g.edges.getD ((retained g cutoff).getD b.1 0) (0, 0)).1
    rw [← hEa, ← hEb, ← ha2, ← hb2, hasrc', hbsrc']
  · exact of_decide_eq_true hka
  · exact of_decide_eq_true hkb

/-- Witness for C7 (amended): the theorem applies at `gMol` with cutoff 5,
where the line graph has the edge (0, 1). -/
theorem claim7_witness :
    (getAttr gMol.edata "bond_dist" =
        some [AttrVal.q 5, AttrVal.q 1, AttrVal.q 5, AttrVal.q 1] ∧
      (0 : ℚ) < 5 ∧
      create_line_graph gMol 5 = some (lineGraphOf gMol 5) ∧
      ((0, 1) : ℕ × ℕ) ∈ (lineGraphOf gMol 5).edges) ∧
    ((0 : ℕ) ≠ 1 ∧
      0 < (retained gMol 5).length ∧
      1 < (retained gMol 5).length ∧
      (retained gMol 5).getD 0 0 ≠ (retained gMol 5).getD 1 0 ∧
      srcAtId gMol ((retained gMol 5).getD 0 0) =
        srcAtId gMol ((retained gMol 5).getD 1 0) ∧
      bdistAt gMol ((retained gMol 5).getD 0 0) ≤ 5 ∧
      bdistAt gMol ((retained gMol 5).getD 1 0) ≤ 5) :=
  ⟨⟨by decide!, by norm_num, by decide!, by decide!⟩,
   claim7_line_graph_pairs gMol 5 [AttrVal.q 5, AttrVal.q 1, AttrVal.q 5, AttrVal.q 1]
     (by decide!) (by norm_num) (lineGraphOf gMol 5) (by decide!) (0, 1) (by decide!)⟩

/-! ### C6: multiset bridging between list pair enumerations and Finset sums -/

theorem vec3_neg_neg (v : Vec3) : Vec3.neg (Vec3.neg v) = v := by
  unfold Vec3.neg
  cases v
  simp

theorem decide_eq_beq_nat (x y : ℕ) : decide (x = y) = (x == y) := by
  rcases h : (x == y) with _ | _
  · have h' : x ≠ y := by simpa using h
    simp [h']
  · have h' : x = y := by simpa using h
    simp [h']

theorem coe_flatMap_msum {α β : Type*} (l : List α) (f : α → List β) :
    ((l.flatMap f : List β) : Multiset β) =
      (Multiset.map (fun a => ((f a : List β) : Multiset β)) (↑l : Multiset α)).sum := by
  induction l with
  | nil => rfl
  | cons x xs ih =>
    rw [List.flatMap_cons]
    rw [show ((f x ++ xs.flatMap f : List β) : Multiset β) =
      ↑(f x) + ↑(xs.flatMap f) from rfl, ih]
    rw [show ((x :: xs : List α) : Multiset α) = x ::ₘ ↑xs from rfl,
      Multiset.map_cons, Multiset.sum_cons]

theorem coe_flatMap_sum {β : Type*} (l : List ℕ) (s : Finset ℕ)
    (hs : s.val = (l : Multiset ℕ)) (f : ℕ → List β) :
    ((l.flatMap f : List β) : Multiset β) = ∑ i ∈ s, ((f i : List β) : Multiset β) := by
  rw [Finset.sum_eq_multiset_sum, hs, coe_flatMap_msum]

theorem coe_filter_map_sum {β : Type*} (l : List ℕ) (s : Finset ℕ)
    (hs : s.val = (l : Multiset ℕ)) (q : ℕ → Bool) (F : ℕ → β) :
    (((l.filter q).map F : List β) : Multiset β) =
      ∑ j ∈ s.filter (fun j => q j = true), ({F j} : Multiset β) := by
  rw [Finset.sum_eq_multiset_sum, Finset.filter_val, hs]
  have h1 : Multiset.filter (fun j => q j = true) (↑l : Multiset ℕ) =
      ((l.filter q : List ℕ) : Multiset ℕ) := by
    rw [show Multiset.filter (fun j => q j = true) (↑l : Multiset ℕ) =
      ↑(l.filter (fun a => decide (q a = true))) from rfl]
    congr 1
    apply List.filter_congr
    intro a _
    cases hq : q a <;> simp [hq]
  rw [h1]
  rw [show (fun j => ({F j} : Multiset β)) = (fun b => ({b} : Multiset β)) ∘ F from rfl,
    ← Multiset.map_map, Multiset.sum_map_singleton, Multiset.map_coe]

theorem coe_pairEnum_sum {β : Type*} (l : List ℕ) (s : Finset ℕ)
    (hs : s.val = (l : Multiset ℕ)) (q : ℕ → ℕ → Bool) (F : ℕ → ℕ → β) :
    ((l.flatMap (fun i => (l.filter (q i)).map (F i)) : List β) : Multiset β) =
      ∑ p ∈ s ×ˢ s, if q p.1 p.2 = true then ({F p.1 p.2} : Multiset β) else 0 := by
  rw [coe_flatMap_sum l s hs]
  rw [Finset.sum_product' s s
    (fun i j => if q i j = true then ({F i j} : Multiset β) else 0)]
  apply Finset.sum_congr rfl
  intro i _
  rw [coe_filter_map_sum l s hs (q i) (F i), Finset.sum_filter]

theorem retainedFinset_val (g : MGraph) (cutoff : ℚ) :
    (retainedFinset g cutoff).val = ((retained g cutoff : List ℕ) : Multiset ℕ) := by
  unfold retainedFinset retained
  rw [Finset.filter_val, Finset.range_val]
  rw [show (Multiset.range g.edges.length) =
    ((List.range g.edges.length : List ℕ) : Multiset ℕ) from rfl]
  rw [show Multiset.filter (fun i => keepId g cutoff i = true)
      ((List.range g.edges.length : List ℕ) : Multiset ℕ) =
    ↑((List.range g.edges.length).filter
      (fun a => decide (keepId g cutoff a = true))) from rfl]
  congr 1
  apply List.filter_congr
  intro a _
  cases hq : keepId g cutoff a <;> simp [hq]

theorem mem_retainedFinset (g : MGraph) (cutoff : ℚ) (i : ℕ) :
    i ∈ retainedFinset g cutoff ↔
      i < g.edges.length ∧ keepId g cutoff i = true := by
  unfold retainedFinset
  rw [Finset.mem_filter, Finset.mem_range]

/-! ### C6: properties of the reverse-edge index -/

theorem revIdx_spec (g : MGraph) (hrev : hasReverses g = true) {e : ℕ}
    (he : e < g.edges.length) :
    revIdx g e < g.edges.length ∧ revIdx g e ≠ e ∧
      isRevPair g e (revIdx g e) = true := by
  have hex : ∃ f ∈ List.range g.edges.length,
      (f != e && isRevPair g e f) = true := by
    have h1 := List.all_eq_true.mp hrev e (List.mem_range.mpr he)
    exact List.any_eq_true.mp h1
  unfold revIdx
  rcases hf : (List.range g.edges.length).find?
      (fun f => f != e && isRevPair g e f) with _ | f
  · exfalso
    have h2 := List.find?_isSome.mpr hex
    rw [hf] at h2
    exact absurd h2 (by simp)
  · have hp := List.find?_some hf
    have hm := List.mem_of_find?_eq_some hf
    have hp' := (Bool.and_eq_true _ _).mp hp
    exact ⟨List.mem_range.mp hm, by simpa using hp'.1, hp'.2⟩

theorem revIdx_edge (g : MGraph) {e : ℕ}
    (h : isRevPair g e (revIdx g e) = true) :
    g.edges.getD (revIdx g e) (0, 0) =
      ((g.edges.getD e (0, 0)).2, (g.edges.getD e (0, 0)).1) ∧
    bvecAt g (revIdx g e) = Vec3.neg (bvecAt g e) := by
  unfold isRevPair at h
  have h' := (Bool.and_eq_true _ _).mp h
  exact ⟨by simpa using h'.1, by simpa using h'.2⟩

theorem edge_vec_inj (g : MGraph) (hnd : noDupEdges g = true) {i j : ℕ}
    (hi : i < g.edges.length) (hj : j < g.edges.length)
    (he : g.edges.getD i (0, 0) = g.edges.getD j (0, 0))
    (hv : bvecAt g i = bvecAt g j) : i = j := by
  unfold noDupEdges at hnd
  have hndup := of_decide_eq_true hnd
  refine nodup_map_mem_inj hndup i (List.mem_range.mpr hi) j (List.mem_range.mpr hj) ?_
  rw [Prod.mk.injEq]
  exact ⟨he, hv⟩

theorem revIdx_invol (g : MGraph) (hrev : hasReverses g = true)
    (hnd : noDupEdges g = true) {e : ℕ} (he : e < g.edges.length) :
    revIdx g (revIdx g e) = e := by
  obtain ⟨hlt, hne, hpair⟩ := revIdx_spec g hrev he
  obtain ⟨hE, hV⟩ := revIdx_edge g hpair
  obtain ⟨hlt2, hne2, hpair2⟩ := revIdx_spec g hrev hlt
  obtain ⟨hE2, hV2⟩ := revIdx_edge g hpair2
  apply edge_vec_inj g hnd hlt2 he
  · rw [hE2, hE]
  · rw [hV2, hV, vec3_neg_neg]

theorem revIdx_bdist (g : MGraph) (hdm : distMatchesVec g = true) {e : ℕ}
    (he : e < g.edges.length) (hlt : revIdx g e < g.edges.length)
    (hpair : isRevPair g e (revIdx g e) = true) :
    bdistAt g (revIdx g e) = bdistAt g e := by
  have hd : ∀ i, i < g.edges.length →
      0 ≤ bdistAt g i ∧ bdistAt g i * bdistAt g i = Vec3.normSq (bvecAt g i) := by
    intro i hi
    have h1 := List.all_eq_true.mp hdm i (List.mem_range.mpr hi)
    have h2 := (Bool.and_eq_true _ _).mp h1
    exact ⟨of_decide_eq_true h2.1, of_decide_eq_true h2.2⟩
  obtain ⟨-, hV⟩ := revIdx_edge g hpair
  obtain ⟨h1, h2⟩ := hd e he
  obtain ⟨h3, h4⟩ := hd _ hlt
  rw [hV, normSq_neg] at h4
  exact (mul_self_inj h3 h1).mp (h4.trans h2.symm)

theorem revIdx_keep (g : MGraph) (cutoff : ℚ) (hdm : distMatchesVec g = true)
    {e : ℕ} (he : e < g.edges.length) (hlt : revIdx g e < g.edges.length)
    (hpair : isRevPair g e (revIdx g e) = true) :
    keepId g cutoff (revIdx g e) = keepId g cutoff e := by
  unfold keepId
  rw [revIdx_bdist g hdm he hlt hpair]

theorem srcAtId_revIdx (g : MGraph) {e : ℕ}
    (hpair : isRevPair g e (revIdx g e) = true) :
    srcAtId g (revIdx g e) = dstAtId g e := by
  obtain ⟨hE, -⟩ := revIdx_edge g hpair
  unfold srcAtId dstAtId
  rw [hE]

theorem dirOK_iff (g : MGraph) (hrev : hasReverses g = true)
    (hnd : noDupEdges g = true) {i j : ℕ} (hi : i < g.edges.length)
    (hj : j < g.edges.length) :
    dirOKb g i j = true ↔
      (srcAtId g j = srcAtId g (revIdx g i) ∧ j ≠ revIdx g i) := by
  obtain ⟨hlt, hne, hpair⟩ := revIdx_spec g hrev hi
  obtain ⟨hE, hV⟩ := revIdx_edge g hpair
  have hsrc : srcAtId g (revIdx g i) = dstAtId g i := srcAtId_revIdx g hpair
  unfold dirOKb
  rw [Bool.and_eq_true, Bool.not_eq_true']
  constructor
  · rintro ⟨h1, h2⟩
    have h1' : srcAtId g j = dstAtId g i := by simpa using h1
    refine ⟨h1'.trans hsrc.symm, ?_⟩
    intro hje
    subst hje
    rw [show (g.edges.getD (revIdx g i) (0, 0) ==
        (dstAtId g i, srcAtId g i)) = true from by
      rw [beq_iff_eq, hE]; rfl] at h2
    rw [show (bvecAt g (revIdx g i) == Vec3.neg (bvecAt g i)) = true from by
      rw [beq_iff_eq, hV]] at h2
    exact absurd h2 (by simp)
  · rintro ⟨h1, h2⟩
    have h1' : srcAtId g j = dstAtId g i := h1.trans hsrc
    refine ⟨by simpa using h1', ?_⟩
    rcases hb : (g.edges.getD j (0, 0) == (dstAtId g i, srcAtId g i)) &&
        (bvecAt g j == Vec3.neg (bvecAt g i)) with _ | _
    · rfl
    · exfalso
      have hb' := (Bool.and_eq_true _ _).mp hb
      have hbe : g.edges.getD j (0, 0) = (dstAtId g i, srcAtId g i) := by
        simpa using hb'.1
      have hbv : bvecAt g j = Vec3.neg (bvecAt g i) := by simpa using hb'.2
      apply h2
      apply edge_vec_inj g hnd hj hlt
      · rw [hbe, hE]
        rfl
      · rw [hbv, hV]

/-! ### C6: normal form of the directed line-graph cosines -/

theorem lgCosReps_dirLineGraphOf (g : MGraph) (cutoff : ℚ) (bvl : List AttrVal)
    (hbv : getAttr g.edata "bond_vec" = some bvl) :
    lgCosReps (dirLineGraphOf g cutoff) = canonDirCos g cutoff := by
  have hpv : ∀ p : ℕ, p < (retained g cutoff).length →
      vec3At (prunedGraph g cutoff).edata "bond_vec" p =
        bvecAt g ((retained g cutoff).getD p 0) :=
    fun p hp => prunedVec_eq g cutoff bvl hbv p hp
  have h0 : lgCosReps (dirLineGraphOf g cutoff) =
      ((withIdx 0 (prunedGraph g cutoff).edges).flatMap (fun a =>
        ((withIdx 0 (prunedGraph g cutoff).edges).filter (fun b =>
          b.2.1 == a.2.2 &&
            !(b.2 == (a.2.2, a.2.1) &&
              vec3At (prunedGraph g cutoff).edata "bond_vec" b.1 ==
                Vec3.neg (vec3At (prunedGraph g cutoff).edata "bond_vec" a.1)))).map
          (fun b => (a.1, b.1)))).map (fun e =>
        clipRep (cosRep (vec3At (prunedGraph g cutoff).edata "bond_vec" e.1)
          (vec3At (prunedGraph g cutoff).edata "bond_vec" e.2))) := rfl
  rw [h0, List.map_flatMap]
  -- step 1: fuse the record-building map with the value map
  have hstep1 : ∀ a ∈ withIdx 0 (prunedGraph g cutoff).edges,
      (((withIdx 0 (prunedGraph g cutoff).edges).filter (fun b =>
          b.2.1 == a.2.2 &&
            !(b.2 == (a.2.2, a.2.1) &&
              vec3At (prunedGraph g cutoff).edata "bond_vec" b.1 ==
                Vec3.neg (vec3At (prunedGraph g cutoff).edata "bond_vec" a.1)))).map
          (fun b => (a.1, b.1))).map (fun e =>
            clipRep (cosRep (vec3At (prunedGraph g cutoff).edata "bond_vec" e.1)
              (vec3At (prunedGraph g cutoff).edata "bond_vec" e.2))) =
      ((withIdx 0 (prunedGraph g cutoff).edges).filter (fun b =>
          b.2.1 == a.2.2 &&
            !(b.2 == (a.2.2, a.2.1) &&
              vec3At (prunedGraph g cutoff).edata "bond_vec" b.1 ==
                Vec3.neg (vec3At (prunedGraph g cutoff).edata "bond_vec" a.1)))).map
          (fun b =>
            clipRep (cosRep (vec3At (prunedGraph g cutoff).edata "bond_vec" a.1)
              (vec3At (prunedGraph g cutoff).edata "bond_vec" b.1))) := by
    intro a _
    rw [List.map_map]
    rfl
  rw [flatMap_congr_mem hstep1]
  -- step 2: expose the retained original indices under the position pairing
  have hpg : (prunedGraph g cutoff).edges =
      (retained g cutoff).map (fun i => g.edges.getD i (0, 0)) := rfl
  rw [hpg, withIdx_of_map]
  -- step 3: eliminate the record constructor from the flatMap and the filter
  have hstep3 :
      (((withIdx 0 (retained g cutoff)).map
          (fun r => (r.1, g.edges.getD r.2 (0, 0)))).flatMap (fun a =>
        (((withIdx 0 (retained g cutoff)).map
            (fun r => (r.1, g.edges.getD r.2 (0, 0)))).filter (fun b =>
          b.2.1 == a.2.2 &&
            !(b.2 == (a.2.2, a.2.1) &&
              vec3At (prunedGraph g cutoff).edata "bond_vec" b.1 ==
                Vec3.neg (vec3At (prunedGraph g cutoff).edata "bond_vec" a.1)))).map
          (fun b =>
            clipRep (cosRep (vec3At (prunedGraph g cutoff).edata "bond_vec" a.1)
              (vec3At (prunedGraph g cutoff).edata "bond_vec" b.1))))) =
      (withIdx 0 (retained g cutoff)).flatMap (fun a =>
        ((withIdx 0 (retained g cutoff)).filter (fun b =>
          (g.edges.getD b.2 (0, 0)).1 == (g.edges.getD a.2 (0, 0)).2 &&
            !(g.edges.getD b.2 (0, 0) ==
                ((g.edges.getD a.2 (0, 0)).2, (g.edges.getD a.2 (0, 0)).1) &&
              vec3At (prunedGraph g cutoff).edata "bond_vec" b.1 ==
                Vec3.neg (vec3At (prunedGraph g cutoff).edata "bond_vec" a.1)))).map
          (fun b =>
            clipRep (cosRep (vec3At (prunedGraph g cutoff).edata "bond_vec" a.1)
              (vec3At (prunedGraph g cutoff).edata "bond_vec" b.1)))) := by
    rw [List.flatMap_map]
    apply flatMap_congr_mem
    intro a _
    have h1 : (((withIdx 0 (retained g cutoff)).map
        (fun r => (r.1, g.edges.getD r.2 (0, 0)))).filter (fun b =>
          b.2.1 == (g.edges.getD a.2 (0, 0)).2 &&
            !(b.2 == ((g.edges.getD a.2 (0, 0)).2, (g.edges.getD a.2 (0, 0)).1) &&
              vec3At (prunedGraph g cutoff).edata "bond_vec" b.1 ==
                Vec3.neg (vec3At (prunedGraph g cutoff).edata "bond_vec" a.1)))) =
        ((withIdx 0 (retained g cutoff)).filter (fun b =>
          (g.edges.getD b.2 (0, 0)).1 == (g.edges.getD a.2 (0, 0)).2 &&
            !(g.edges.getD b.2 (0, 0) ==
                ((g.edges.getD a.2 (0, 0)).2, (g.edges.getD a.2 (0, 0)).1) &&
              vec3At (prunedGraph g cutoff).edata "bond_vec" b.1 ==
                Vec3.neg (vec3At (prunedGraph g cutoff).edata "bond_vec" a.1)))).map
          (fun r => (r.1, g.edges.getD r.2 (0, 0))) :=
      List.filter_map _ _
    rw [h1, List.map_map]
    rfl
  rw [hstep3]
  -- facts about the position/original-index pairs
  have hmemV : ∀ r : ℕ × ℕ, r ∈ withIdx 0 (retained g cutoff) →
      r.1 < (retained g cutoff).length ∧ r.2 = (retained g cutoff).getD r.1 0 := by
    intro r hr
    exact mem_withIdx_zero 0 hr
  have hpvV : ∀ r : ℕ × ℕ, r ∈ withIdx 0 (retained g cutoff) →
      vec3At (prunedGraph g cutoff).edata "bond_vec" r.1 = bvecAt g r.2 := by
    intro r hr
    obtain ⟨h1, h2⟩ := hmemV r hr
    rw [hpv r.1 h1, ← h2]
  -- step 4: rewrite the vectors, drop the clip, and fold the condition
  have hstep4 : (withIdx 0 (retained g cutoff)).flatMap (fun a =>
      ((withIdx 0 (retained g cutoff)).filter (fun b =>
        (g.edges.getD b.2 (0, 0)).1 == (g.edges.getD a.2 (0, 0)).2 &&
          !(g.edges.getD b.2 (0, 0) ==
              ((g.edges.getD a.2 (0, 0)).2, (g.edges.getD a.2 (0, 0)).1) &&
            vec3At (prunedGraph g cutoff).edata "bond_vec" b.1 ==
              Vec3.neg (vec3At (prunedGraph g cutoff).edata "bond_vec" a.1)))).map
        (fun b =>
          clipRep (cosRep (vec3At (prunedGraph g cutoff).edata "bond_vec" a.1)
            (vec3At (prunedGraph g cutoff).edata "bond_vec" b.1)))) =
      (withIdx 0 (retained g cutoff)).flatMap (fun a =>
        ((withIdx 0 (retained g cutoff)).filter (fun b => dirOKb g a.2 b.2)).map
          (fun b => cosRep (bvecAt g a.2) (bvecAt g b.2))) := by
    apply flatMap_congr_mem
    intro a ha
    apply map_filter_mem_congr
    · intro b hb
      rw [hpvV a ha, hpvV b hb]
      rfl
    · intro b hb
      rw [hpvV a ha, hpvV b hb, clipRep_cosRep]
  rw [hstep4]
  -- step 5: project the records to the original edge indices
  have hstep5 : (withIdx 0 (retained g cutoff)).flatMap (fun a =>
      ((withIdx 0 (retained g cutoff)).filter (fun b => dirOKb g a.2 b.2)).map
        (fun b => cosRep (bvecAt g a.2) (bvecAt g b.2))) =
      ((withIdx 0 (retained g cutoff)).map (fun r : ℕ × ℕ => r.2)).flatMap (fun i =>
        (((withIdx 0 (retained g cutoff)).map (fun r : ℕ × ℕ => r.2)).filter
          (fun j => dirOKb g i j)).map (fun j =>
            cosRep (bvecAt g i) (bvecAt g j))) :=
    pairs_projection (withIdx 0 (retained g cutoff)) (fun r => r.2)
      (fun x y => dirOKb g y x) (fun x y => cosRep (bvecAt g x) (bvecAt g y))
  rw [hstep5, withIdx_map_snd]
  rfl

theorem srcAtId_lt_numNodes (g : MGraph) (hst : wfStructure g = true) {i : ℕ}
    (hi : i < g.edges.length) : srcAtId g i < g.numNodes := by
  have h1 := (Bool.and_eq_true _ _).mp hst
  have hmem : g.edges.getD i (0, 0) ∈ g.edges := by
    rw [List.getD_eq_getElem _ _ hi]
    exact List.getElem_mem hi
  have h2 := List.all_eq_true.mp h1.1 _ hmem
  have h3 := (Bool.and_eq_true _ _).mp h2
  exact of_decide_eq_true h3.1

theorem coe_canonCos_sum (g : MGraph) (cutoff : ℚ) (hst : wfStructure g = true) :
    ((canonCos g cutoff : List (ℤ × ℚ)) : Multiset (ℤ × ℚ)) =
      ∑ p ∈ retainedFinset g cutoff ×ˢ retainedFinset g cutoff,
        if srcAtId g p.2 = srcAtId g p.1 ∧ p.2 ≠ p.1
        then ({cosRep (bvecAt g p.1) (bvecAt g p.2)} : Multiset (ℤ × ℚ)) else 0 := by
  have hbound : ∀ i ∈ retainedFinset g cutoff, srcAtId g i < g.numNodes := by
    intro i hi
    exact srcAtId_lt_numNodes g hst ((mem_retainedFinset g cutoff i).mp hi).1
  unfold canonCos
  rw [coe_flatMap_sum (List.range g.numNodes) (Finset.range g.numNodes)
    (by rw [Finset.range_val]; rfl)]
  have hatom : ∀ atom ∈ Finset.range g.numNodes,
      (((atomIds g cutoff atom).flatMap (fun i =>
        ((atomIds g cutoff atom).filter (fun j => j != i)).map (fun j =>
          cosRep (bvecAt g i) (bvecAt g j))) : List (ℤ × ℚ)) : Multiset (ℤ × ℚ)) =
      ∑ p ∈ retainedFinset g cutoff ×ˢ retainedFinset g cutoff,
        if srcAtId g p.1 = atom ∧ srcAtId g p.2 = atom
        then (if (p.2 != p.1) = true
          then ({cosRep (bvecAt g p.1) (bvecAt g p.2)} : Multiset (ℤ × ℚ)) else 0)
        else 0 := by
    intro atom _
    have hs' : ((retainedFinset g cutoff).filter (fun i => srcAtId g i = atom)).val =
        ((atomIds g cutoff atom : List ℕ) : Multiset ℕ) := by
      rw [Finset.filter_val, retainedFinset_val]
      rw [show Multiset.filter (fun i => srcAtId g i = atom)
          ((retained g cutoff : List ℕ) : Multiset ℕ) =
        ↑((retained g cutoff).filter (fun a => decide (srcAtId g a = atom))) from rfl]
      unfold atomIds
      congr 1
    rw [coe_pairEnum_sum (atomIds g cutoff atom)
      ((retainedFinset g cutoff).filter (fun i => srcAtId g i = atom)) hs'
      (fun i j => j != i) (fun i j => cosRep (bvecAt g i) (bvecAt g j))]
    rw [show (retainedFinset g cutoff).filter (fun i => srcAtId g i = atom) ×ˢ
        (retainedFinset g cutoff).filter (fun i => srcAtId g i = atom) =
      (retainedFinset g cutoff ×ˢ retainedFinset g cutoff).filter
        (fun p => srcAtId g p.1 = atom ∧ srcAtId g p.2 = atom) from
      (Finset.filter_product _ _).symm]
    rw [Finset.sum_filter]
  rw [Finset.sum_congr rfl hatom, Finset.sum_comm]
  apply Finset.sum_congr rfl
  intro p hp
  have hp1 : p.1 ∈ retainedFinset g cutoff := (Finset.mem_product.mp hp).1
  have hb : srcAtId g p.1 ∈ Finset.range g.numNodes :=
    Finset.mem_range.mpr (hbound p.1 hp1)
  have hcongr : ∀ atom ∈ Finset.range g.numNodes,
      (if srcAtId g p.1 = atom ∧ srcAtId g p.2 = atom
        then (if (p.2 != p.1) = true
          then ({cosRep (bvecAt g p.1) (bvecAt g p.2)} : Multiset (ℤ × ℚ)) else 0)
        else 0) =
      (if atom = srcAtId g p.1
        then (if srcAtId g p.2 = srcAtId g p.1 ∧ p.2 ≠ p.1
          then ({cosRep (bvecAt g p.1) (bvecAt g p.2)} : Multiset (ℤ × ℚ)) else 0)
        else 0) := by
    intro atom _
    by_cases h1 : atom = srcAtId g p.1
    · rw [if_pos h1]
      by_cases h2 : srcAtId g p.2 = srcAtId g p.1
      · by_cases h3 : p.2 = p.1
        · rw [if_pos ⟨h1.symm, h2.trans h1.symm⟩,
            if_neg (fun hb => absurd h3 (bne_iff_ne.mp hb)),
            if_neg (fun hc => hc.2 h3)]
        · rw [if_pos ⟨h1.symm, h2.trans h1.symm⟩, if_pos (bne_iff_ne.mpr h3),
            if_pos ⟨h2, h3⟩]
      · rw [if_neg (fun hc => h2 (hc.2.trans h1)), if_neg (fun hc => h2 hc.1)]
    · rw [if_neg (fun hc => h1 hc.1.symm), if_neg h1]
  rw [Finset.sum_congr rfl hcongr,
    Finset.sum_ite_eq' (Finset.range g.numNodes) (srcAtId g p.1), if_pos hb]

theorem canonDirNeg_eq_canonCos (g : MGraph) (cutoff : ℚ)
    (hwf : wfInput g = true) (hrev : hasReverses g = true)
    (hnd : noDupEdges g = true) :
    (((canonDirCos g cutoff).map negRep : List (ℤ × ℚ)) : Multiset (ℤ × ℚ)) =
      ((canonCos g cutoff : List (ℤ × ℚ)) : Multiset (ℤ × ℚ)) := by
  obtain ⟨hst, hbo, hdm⟩ := wfInput_parts hwf
  have hmapneg : (canonDirCos g cutoff).map negRep =
      (retained g cutoff).flatMap (fun i =>
        ((retained g cutoff).filter (fun j => dirOKb g i j)).map (fun j =>
          negRep (cosRep (bvecAt g i) (bvecAt g j)))) := by
    unfold canonDirCos
    rw [List.map_flatMap]
    apply flatMap_congr_mem
    intro i _
    rw [List.map_map]
    rfl
  rw [hmapneg]
  rw [coe_pairEnum_sum (retained g cutoff) (retainedFinset g cutoff)
    (retainedFinset_val g cutoff) (fun i j => dirOKb g i j)
    (fun i j => negRep (cosRep (bvecAt g i) (bvecAt g j)))]
  rw [coe_canonCos_sum g cutoff hst]
  have hmem : ∀ p : ℕ × ℕ,
      p ∈ retainedFinset g cutoff ×ˢ retainedFinset g cutoff →
      p.1 < g.edges.length ∧ p.2 < g.edges.length ∧
        keepId g cutoff p.1 = true ∧ keepId g cutoff p.2 = true := by
    intro p hp
    obtain ⟨h1, h2⟩ := Finset.mem_product.mp hp
    obtain ⟨h1a, h1b⟩ := (mem_retainedFinset g cutoff p.1).mp h1
    obtain ⟨h2a, h2b⟩ := (mem_retainedFinset g cutoff p.2).mp h2
    exact ⟨h1a, h2a, h1b, h2b⟩
  have hΦ : ∀ p : ℕ × ℕ,
      p ∈ retainedFinset g cutoff ×ˢ retainedFinset g cutoff →
      (revIdx g p.1, p.2) ∈ retainedFinset g cutoff ×ˢ retainedFinset g cutoff := by
    intro p hp
    obtain ⟨h1, h2, h3, h4⟩ := hmem p hp
    obtain ⟨hlt, -, hpair⟩ := revIdx_spec g hrev h1
    refine Finset.mem_product.mpr ⟨?_, (Finset.mem_product.mp hp).2⟩
    refine (mem_retainedFinset g cutoff _).mpr ⟨hlt, ?_⟩
    rw [revIdx_keep g cutoff hdm h1 hlt hpair]
    exact h3
  have hinv : ∀ p : ℕ × ℕ,
      p ∈ retainedFinset g cutoff ×ˢ retainedFinset g cutoff →
      ((revIdx g (revIdx g p.1), p.2) : ℕ × ℕ) = p := by
    intro p hp
    obtain ⟨h1, -, -, -⟩ := hmem p hp
    rw [revIdx_invol g hrev hnd h1]
  refine Finset.sum_nbij' (fun p => (revIdx g p.1, p.2))
    (fun p => (revIdx g p.1, p.2)) hΦ hΦ hinv hinv ?_
  intro p hp
  obtain ⟨h1, h2, -, -⟩ := hmem p hp
  obtain ⟨hlt, -, hpair⟩ := revIdx_spec g hrev h1
  dsimp only
  by_cases hD : dirOKb g p.1 p.2 = true
  · rw [if_pos hD, if_pos ((dirOK_iff g hrev hnd h1 h2).mp hD)]
    have hV : bvecAt g (revIdx g p.1) = Vec3.neg (bvecAt g p.1) :=
      (revIdx_edge g hpair).2
    rw [hV, cosRep_neg_left]
  · rw [if_neg hD, if_neg (fun hc => hD ((dirOK_iff g hrev hnd h1 h2).mpr hc))]

/-- C6 counterexample: at the molecular graph `gMol` with cutoff 5 the multiset
of `π − theta` over the directed line graph after `compute_theta` is
`{arccos((1−1e-7)·3/5), arccos((1−1e-7)·3/5)}`, while the brute-force physical
angles are `{arccos(3/5), arccos(3/5)}`: the ε-guard `cos·(1−1e-7)` applied
before `arccos` shifts every angle, so the two multisets differ and the claim's
equality fails. -/
theorem claim6_counterexample :
    create_directed_line_graph gMol 5 = some (dirLineGraphOf gMol 5) ∧
    getAttr (compute_theta (dirLineGraphOf gMol 5) false true).edata "theta" =
      some (thetaVals (dirLineGraphOf gMol 5)) ∧
    ¬((((thetaVals (dirLineGraphOf gMol 5)).map
          (fun a => Real.pi - AttrVal.real a) : List ℝ) : Multiset ℝ) =
        (((bruteCosList gMol 5).map (fun r => Real.arccos (repReal r)) : List ℝ) :
          Multiset ℝ)) := by
  refine ⟨by decide!, ?_, ?_⟩
  · show getAttr (setAttr (setAttr (dirLineGraphOf gMol 5).edata "cos_theta"
      (cosThetaVals (dirLineGraphOf gMol 5))) "theta"
      (thetaVals (dirLineGraphOf gMol 5))) "theta" = _
    exact getAttr_setAttr_self _ _ _
  intro hEq
  have hTh : thetaVals (dirLineGraphOf gMol 5) =
      [AttrVal.ac (-1) (899999820000009 / 2500000000000000),
       AttrVal.ac (-1) (899999820000009 / 2500000000000000)] := by decide!
  have hBr : bruteCosList gMol 5 =
      [((1 : ℤ), (9 / 25 : ℚ)), ((1 : ℤ), (9 / 25 : ℚ))] := by decide!
  rw [hTh, hBr] at hEq
  simp only [List.map_cons, List.map_nil] at hEq
  have hA : Real.pi - AttrVal.real
      (AttrVal.ac (-1) (899999820000009 / 2500000000000000)) =
      Real.arccos ((29999997 : ℝ) / 50000000) := by
    show Real.pi - Real.arccos
      (repReal ((-1 : ℤ), (899999820000009 / 2500000000000000 : ℚ))) = _
    unfold repReal
    have hsq : ((899999820000009 / 2500000000000000 : ℚ) : ℝ) =
        ((29999997 : ℝ) / 50000000) ^ 2 := by
      norm_num
    rw [hsq, Real.sqrt_sq (by norm_num)]
    rw [show (((-1 : ℤ) : ℝ)) * ((29999997 : ℝ) / 50000000) =
      -((29999997 : ℝ) / 50000000) from by push_cast; ring]
    rw [Real.arccos_neg]
    ring
  have hB : Real.arccos (repReal ((1 : ℤ), (9 / 25 : ℚ))) =
      Real.arccos ((3 : ℝ) / 5) := by
    unfold repReal
    have hsq : ((9 / 25 : ℚ) : ℝ) = ((3 : ℝ) / 5) ^ 2 := by norm_num
    rw [hsq, Real.sqrt_sq (by norm_num)]
    congr 1
    push_cast
    ring
  rw [hA, hB] at hEq
  have hmem : Real.arccos ((29999997 : ℝ) / 50000000) ∈
      (↑[Real.arccos ((3 : ℝ) / 5), Real.arccos ((3 : ℝ) / 5)] : Multiset ℝ) := by
    rw [← hEq]
    simp
  have heqv : Real.arccos ((29999997 : ℝ) / 50000000) =
      Real.arccos ((3 : ℝ) / 5) := by
    simpa using hmem
  have hc := Real.arccos_injOn
    (Set.mem_Icc.mpr ⟨by norm_num, by norm_num⟩)
    (Set.mem_Icc.mpr ⟨by norm_num, by norm_num⟩) heqv
  norm_num at hc

/-- C6 (amended): for every well-formed atomic graph whose edge list contains the
reverse of every edge and no duplicate (endpoints, bond_vec) records, and every
positive cutoff, the multiset of `π − theta` over the edges of
`create_directed_line_graph` after `compute_theta(cosine=false)` equals (up to
sort order) the multiset of `arccos((1 − 1e-7)·c)` over the brute-force
atom-centered pair cosines `c` within the same cutoff — the physical angles
up to the ε-guard `(1 − 1e-7)` that the code multiplies in before `arccos`. -/
theorem claim6_directed_angle_multiset (g : MGraph) (cutoff : ℚ) (d : Bool)
    (hwf : wfInput g = true) (hrev : hasReverses g = true)
    (hnd : noDupEdges g = true) (hc : 0 < cutoff) :
    ∃ lg th, create_directed_line_graph g cutoff = some lg ∧
      getAttr (compute_theta lg false d).edata "theta" = some th ∧
      ((th.map (fun a => Real.pi - AttrVal.real a) : List ℝ) : Multiset ℝ) =
        (((bruteCosList g cutoff).map
          (fun r => Real.arccos (((epsFactor : ℚ) : ℝ) * repReal r)) : List ℝ) :
            Multiset ℝ) := by
  obtain ⟨hst, hbo, hdm⟩ := wfInput_parts hwf
  obtain ⟨bvl, hbv⟩ := wfBonds_bond_vec hbo
  obtain ⟨bdl, hbd⟩ := wfBonds_bond_dist hbo
  refine ⟨dirLineGraphOf g cutoff, thetaVals (dirLineGraphOf g cutoff),
    create_directed_line_graph_eq g cutoff bdl hbd hc, ?_, ?_⟩
  · show getAttr (setAttr (setAttr (dirLineGraphOf g cutoff).edata "cos_theta"
      (cosThetaVals (dirLineGraphOf g cutoff))) "theta"
      (thetaVals (dirLineGraphOf g cutoff))) "theta" = _
    exact getAttr_setAttr_self _ _ _
  · have h1 : (thetaVals (dirLineGraphOf g cutoff)).map
        (fun a => Real.pi - AttrVal.real a) =
        ((lgCosReps (dirLineGraphOf g cutoff)).map negRep).map
          (fun s => Real.arccos (((epsFactor : ℚ) : ℝ) * repReal s)) := by
      unfold thetaVals
      rw [List.map_map, List.map_map]
      apply List.map_congr_left
      intro r hr
      have hr2 : 0 ≤ r.2 := by
        unfold lgCosReps at hr
        obtain ⟨e, -, he⟩ := List.mem_map.mp hr
        rw [← he]
        exact clipRep_sq_nonneg _ (cosRep_sq_nonneg _ _)
      show Real.pi - Real.arccos (repReal ((epsScale r).1, (epsScale r).2)) = _
      rw [show ((epsScale r).1, (epsScale r).2) = epsScale r from rfl,
        repReal_epsScale r hr2]
      show _ = Real.arccos (((epsFactor : ℚ) : ℝ) * repReal (negRep r))
      rw [repReal_negRep, mul_neg, Real.arccos_neg]
    rw [h1, lgCosReps_dirLineGraphOf g cutoff bvl hbv,
      bruteCosList_eq_canonCos g cutoff hst hdm hc]
    rw [show ((((canonDirCos g cutoff).map negRep).map
        (fun s => Real.arccos (((epsFactor : ℚ) : ℝ) * repReal s)) : List ℝ) :
        Multiset ℝ) =
      Multiset.map (fun s => Real.arccos (((epsFactor : ℚ) : ℝ) * repReal s))
        (((canonDirCos g cutoff).map negRep : List (ℤ × ℚ)) : Multiset (ℤ × ℚ))
      from (Multiset.map_coe _ _).symm]
    rw [canonDirNeg_eq_canonCos g cutoff hwf hrev hnd]
    rw [Multiset.map_coe]

/-- Witness for C6 (amended): the hypotheses hold and the theorem applies at the
3-atom molecular graph `gMol` with cutoff 5. -/
theorem claim6_witness :
    (wfInput gMol = true ∧ hasReverses gMol = true ∧ noDupEdges gMol = true ∧
      (0 : ℚ) < 5) ∧
    (∃ lg th, create_directed_line_graph gMol 5 = some lg ∧
      getAttr (compute_theta lg false true).edata "theta" = some th ∧
      ((th.map (fun a => Real.pi - AttrVal.real a) : List ℝ) : Multiset ℝ) =
        (((bruteCosList gMol 5).map
          (fun r => Real.arccos (((epsFactor : ℚ) : ℝ) * repReal r)) : List ℝ) :
            Multiset ℝ)) :=
  ⟨⟨by decide!, by decide!, by decide!, by norm_num⟩,
   claim6_directed_angle_multiset gMol 5 true (by decide!) (by decide!)
     (by decide!) (by norm_num)⟩

/-! ### C10: ModelSource initialisation -/

theorem pySplit_ne_nil (sep : Char) : ∀ l : List Char, pySplit sep l ≠ []
  | [] => by simp [pySplit]
  | ch :: cs => by
    unfold pySplit
    rcases pySplit sep cs with _ | ⟨h, t⟩
    · simp
    · rcases hc : (ch == sep) with _ | _ <;> simp [hc]

theorem getLastD_indep {α : Type*} : ∀ (l : List α), l ≠ [] → ∀ (d d' : α),
    l.getLastD d = l.getLastD d'
  | [], h, _, _ => absurd rfl h
  | [x], _, _, _ => rfl
  | x :: y :: ys, _, d, d' => rfl

theorem takeWhile_all {α : Type*} (p : α → Bool) : ∀ (l : List α),
    (∀ x ∈ l, p x = true) → l.takeWhile p = l
  | [], _ => rfl
  | x :: xs, h => by
    rw [List.takeWhile_cons, h x (by simp)]
    simp only [if_true]
    rw [takeWhile_all p xs (fun y hy => h y (by simp [hy]))]

theorem takeWhile_append_of_mem_false {α : Type*} (p : α → Bool) :
    ∀ (xs ys : List α), (∃ x ∈ xs, p x = false) →
      (xs ++ ys).takeWhile p = xs.takeWhile p
  | [], _, h => by
    obtain ⟨x, hx, -⟩ := h
    simp at hx
  | a :: as, ys, h => by
    rcases ha : p a with _ | _
    · rw [List.cons_append, List.takeWhile_cons, ha, List.takeWhile_cons, ha]
      simp
    · obtain ⟨x, hx, hpx⟩ := h
      have hxas : x ∈ as := by
        rcases List.mem_cons.mp hx with h1 | h1
        · rw [h1, ha] at hpx
          cases hpx
        · exact h1
      rw [List.cons_append, List.takeWhile_cons, ha, List.takeWhile_cons, ha]
      simp only [if_true]
      rw [takeWhile_append_of_mem_false p as ys ⟨x, hxas, hpx⟩]

theorem afterLastSlash_no_slash {l : List Char} (h : '/' ∉ l) :
    afterLastSlash l = l := by
  unfold afterLastSlash
  rw [takeWhile_all _ l.reverse (fun x hx => by
    have hxl : x ∈ l := List.mem_reverse.mp hx
    have hne : x ≠ '/' := fun he => h (he ▸ hxl)
    simpa using hne)]
  exact List.reverse_reverse l

theorem takeWhile_append_singleton_false {α : Type*} (p : α → Bool) (x : α)
    (hx : p x = false) : ∀ (l : List α), (l ++ [x]).takeWhile p = l.takeWhile p
  | [] => by
    rw [List.nil_append, List.takeWhile_cons, hx]
    simp
  | a :: as => by
    rcases ha : p a with _ | _
    · rw [List.cons_append, List.takeWhile_cons, ha, List.takeWhile_cons, ha]
      simp
    · rw [List.cons_append, List.takeWhile_cons, ha, List.takeWhile_cons, ha]
      simp only [if_true]
      rw [takeWhile_append_singleton_false p x hx as]

theorem afterLastSlash_cons_of_slash {ch : Char} {cs : List Char}
    (h : ch = '/' ∨ '/' ∈ cs) :
    afterLastSlash (ch :: cs) = afterLastSlash cs := by
  unfold afterLastSlash
  rw [List.reverse_cons]
  rcases h with h | h
  · rw [takeWhile_append_singleton_false _ ch (by simp [h]) cs.reverse]
  · rw [takeWhile_append_of_mem_false _ cs.reverse [ch]
      ⟨'/', List.mem_reverse.mpr h, by simp⟩]

theorem pySplit_invariant : ∀ l : List Char,
    (pySplit '/' l).getLastD [] = afterLastSlash l ∧
      ('/' ∈ l ↔ 2 ≤ (pySplit '/' l).length)
  | [] => by
    constructor
    · rfl
    · simp [pySplit]
  | ch :: cs => by
    obtain ⟨ih1, ih2⟩ := pySplit_invariant cs
    obtain ⟨h, t, hht⟩ : ∃ h t, pySplit '/' cs = h :: t := by
      rcases hps : pySplit '/' cs with _ | ⟨h, t⟩
      · exact absurd hps (pySplit_ne_nil '/' cs)
      · exact ⟨h, t, rfl⟩
    have hstep : pySplit '/' (ch :: cs) =
        if (ch == '/') = true then [] :: h :: t else (ch :: h) :: t := by
      unfold pySplit
      rw [hht]
    rcases hch : (ch == '/') with _ | _
    · have hch' : ch ≠ '/' := by simpa using hch
      have hred : pySplit '/' (ch :: cs) = (ch :: h) :: t := by
        rw [hstep, hch]
        simp
      constructor
      · rw [hred]
        cases t with
        | nil =>
          have hnoslash : '/' ∉ cs := by
            intro hmem
            have h2 := ih2.mp hmem
            rw [hht] at h2
            simp at h2
          have hcs : afterLastSlash cs = cs := afterLastSlash_no_slash hnoslash
          have hall : afterLastSlash (ch :: cs) = ch :: cs :=
            afterLastSlash_no_slash (by
              intro hmem
              rcases List.mem_cons.mp hmem with h1 | h1
              · exact hch' h1.symm
              · exact hnoslash h1)
          rw [hall]
          have hh : h = cs := by
            rw [hht] at ih1
            rw [hcs] at ih1
            exact ih1
          rw [show ([ch :: h] : List (List Char)).getLastD [] = ch :: h from rfl, hh]
        | cons t0 ts =>
          have hslash : '/' ∈ cs := by
            apply ih2.mpr
            rw [hht]
            simp
          rw [afterLastSlash_cons_of_slash (Or.inr hslash), ← ih1, hht]
          rw [show ((ch :: h) :: t0 :: ts).getLastD [] = (t0 :: ts).getLastD (ch :: h)
            from rfl]
          rw [show (h :: t0 :: ts).getLastD [] = (t0 :: ts).getLastD h from rfl]
          exact getLastD_indep (t0 :: ts) (by simp) (ch :: h) h
      · rw [hred]
        constructor
        · intro hmem
          rcases List.mem_cons.mp hmem with h1 | h1
          · exact absurd h1.symm hch'
          · have h2 := ih2.mp h1
            rw [hht] at h2
            simpa using h2
        · intro hlen
          apply List.mem_cons_of_mem
          apply ih2.mpr
          rw [hht]
          simpa using hlen
    · have hch' : ch = '/' := by simpa using hch
      have hred : pySplit '/' (ch :: cs) = [] :: h :: t := by
        rw [hstep, hch]
        simp
      constructor
      · rw [hred, afterLastSlash_cons_of_slash (Or.inl hch'), ← ih1, hht]
        rfl
      · rw [hred]
        constructor
        · intro _
          simp
        · intro _
          rw [hch']
          exact List.mem_cons_self '/' cs

theorem modelName_eq_afterLastSlash (uri : List Char) :
    modelName uri = afterLastSlash uri :=
  (pySplit_invariant uri).1

/-- C10: `ModelSource.__init__(uri, use_cache, force_download)` sets
`model_name` to the substring of `uri` after its last '/', sets `local_path`
into the pretrained-models cache directory when `use_cache` is true (creating
the directory when missing — the resulting cache-directory flag is
`use_cache || existed-before`) and to `model_name` in the current working
directory otherwise, and downloads the response body to `local_path` exactly
when the file does not already exist or `force_download` is set (otherwise the
filesystem's files are untouched). -/
theorem claim10_model_source_init (uri : List Char) (uc fd : Bool)
    (response : List Char) (fs0 : FS) :
    (modelSourceInit uri uc fd response fs0).model_name = afterLastSlash uri ∧
    (modelSourceInit uri uc fd response fs0).local_path =
      (if uc then PathLoc.cache (afterLastSlash uri)
       else PathLoc.cwd (afterLastSlash uri)) ∧
    (modelSourceInit uri uc fd response fs0).fs.cacheDirExists =
      (uc || fs0.cacheDirExists) ∧
    ((modelSourceInit uri uc fd response fs0).downloaded = true ↔
      (FS.fileExists fs0 (modelSourceInit uri uc fd response fs0).local_path =
          false ∨ fd = true)) ∧
    ((modelSourceInit uri uc fd response fs0).downloaded = true →
      FS.contentAt (modelSourceInit uri uc fd response fs0).fs
        (modelSourceInit uri uc fd response fs0).local_path = some response) ∧
    ((modelSourceInit uri uc fd response fs0).downloaded = false →
      (modelSourceInit uri uc fd response fs0).fs.files = fs0.files) := by
  have hmn := modelName_eq_afterLastSlash uri
  rcases uc with _ | _ <;> rcases fd with _ | _
  · rcases hfe : fs0.files.any (fun f => f.1 == PathLoc.cwd (modelName uri))
        with _ | _ <;>
      simp [modelSourceInit, FS.fileExists, FS.contentAt, hfe, ← hmn]
  · simp [modelSourceInit, FS.fileExists, FS.contentAt, ← hmn]
  · rcases hfe : fs0.files.any (fun f => f.1 == PathLoc.cache (modelName uri))
        with _ | _ <;>
      rcases hcd : fs0.cacheDirExists with _ | _ <;>
      simp [modelSourceInit, FS.fileExists, FS.contentAt, hfe, hcd, ← hmn]
  · rcases hcd : fs0.cacheDirExists with _ | _ <;>
      simp [modelSourceInit, FS.fileExists, FS.contentAt, hcd, ← hmn]

/-- Witness for C10: at `uri = "a/b"`, `use_cache = true`,
`force_download = false`, empty filesystem without cache directory, the theorem
applies: the model name is "b", the local path is in the cache, the cache
directory is created, and the response body is downloaded there. -/
theorem claim10_witness :
    (modelSourceInit ['a', '/', 'b'] true false ['R'] ⟨false, []⟩).model_name =
        afterLastSlash ['a', '/', 'b'] ∧
    (modelSourceInit ['a', '/', 'b'] true false ['R'] ⟨false, []⟩).local_path =
        PathLoc.cache ['b'] ∧
    (modelSourceInit ['a', '/', 'b'] true false ['R'] ⟨false, []⟩).fs.cacheDirExists =
        true ∧
    (modelSourceInit ['a', '/', 'b'] true false ['R'] ⟨false, []⟩).downloaded =
        true ∧
    FS.contentAt (modelSourceInit ['a', '/', 'b'] true false ['R'] ⟨false, []⟩).fs
      (modelSourceInit ['a', '/', 'b'] true false ['R'] ⟨false, []⟩).local_path =
        some ['R'] :=
  ⟨(claim10_model_source_init ['a', '/', 'b'] true false ['R'] ⟨false, []⟩).1,
   by decide!, by decide!, by decide!,
   (claim10_model_source_init ['a', '/', 'b'] true false ['R']
       ⟨false, []⟩).2.2.2.2.1 (by decide!)⟩

end MatglSpec
